import Mathlib

/-!
# Verification of the QuantumultX → AdGuard/hosts rule converter

Shallow embedding of `convert.py`.  Strings are modelled as `List Char`
(Python `str` is a sequence of code points).  Each definition mirrors one
Python function or expression; the doc comments name the source lines.
-/

namespace Convert

/-- Python `\s` / `str.isspace` on the ASCII whitespace characters
(`' '`, `'\t'`, `'\n'`, `'\r'`, `'\x0b'`, `'\x0c'`).  The regexes in
`convert.py` use `\s` and `str.strip()` strips exactly these (plus other
Unicode spaces, which never occur in the rule grammars). -/
def pyIsSpace (c : Char) : Bool :=
  c == ' ' || c == '\t' || c == '\n' || c == '\r' || c == '\x0b' || c == '\x0c'

/-- ASCII lower-casing of one character, as Python's `str.lower` acts on
the ASCII letters used by the rule keywords. -/
def toLowerChar (c : Char) : Char :=
  if 'A' ≤ c ∧ c ≤ 'Z' then Char.ofNat (c.toNat + 32) else c

/-- Case-insensitive character comparison (the effect of `re.I`). -/
def eqCI (a b : Char) : Bool := decide (toLowerChar a = toLowerChar b)

/-- Case-insensitive equality of two strings, character by character. -/
def ciEq : List Char → List Char → Bool
  | [], [] => true
  | a :: as, b :: bs => eqCI a b && ciEq as bs
  | _, _ => false

/-- Match a literal pattern case-insensitively at the start of `s`
(the way `re.match` consumes a literal such as `host` under `re.I`),
returning the rest of the string on success. -/
def matchCI : List Char → List Char → Option (List Char)
  | [], s => some s
  | _ :: _, [] => none
  | p :: ps, c :: cs => if eqCI p c then matchCI ps cs else none

/-- `str.strip()` (convert.py line 158): drop leading and trailing
whitespace. -/
def pyStrip (s : List Char) : List Char :=
  ((s.dropWhile pyIsSpace).reverse.dropWhile pyIsSpace).reverse

/-- `str.lower()` over a whole string. -/
def pyLower (s : List Char) : List Char := s.map toLowerChar

/-- The token class of `TOKEN_RE = r'([^\s,]+)'` (convert.py line 25):
any character that is neither whitespace nor a comma. -/
def isTokenChar (c : Char) : Bool := !pyIsSpace c && !(c == ',')

/-- Drop a run of `\s*`. -/
def dropWS (s : List Char) : List Char := s.dropWhile pyIsSpace

/-- Consume a literal `','`. -/
def expectComma : List Char → Option (List Char)
  | [] => none
  | c :: r => if c = ',' then some r else none

/-- The trailing `reject\s*$` of every rule regex: a case-insensitive
`reject` followed only by whitespace. -/
def expectRejectEnd (s : List Char) : Bool :=
  match matchCI "reject".toList s with
  | some r4 => dropWS r4 = []
  | none => false

/-- The common tail `\s*,\s*([^\s,]+)\s*,\s*reject\s*$` of the three
`host*` regexes (convert.py lines 161, 169, 175), applied after the
keyword has been consumed.  Returns the captured token.  The regex is
deterministic here: the token class excludes whitespace and commas, so
the greedy captures never backtrack. -/
def parseTail (s : List Char) : Option (List Char) :=
  (expectComma (dropWS s)).bind (fun r1 =>
    let r2 := dropWS r1
    let tok := r2.takeWhile isTokenChar
    if tok = [] then none
    else
      (expectComma (dropWS (r2.dropWhile isTokenChar))).bind (fun r3 =>
        if expectRejectEnd (dropWS r3) then some tok else none))

/-- One whole rule regex `kw\s*,\s*([^\s,]+)\s*,\s*reject\s*$` with a
literal keyword `kw`, matched case-insensitively from the start of the
string as `re.match(..., re.I)` does. -/
def parseRejectRule (kw : String) (s : List Char) : Option (List Char) :=
  match matchCI kw.toList s with
  | some r => parseTail r
  | none => none

/-- Character class `[^\s\/,]` of the url-rule host capture
(convert.py line 181). -/
def isUrlHostChar (c : Char) : Bool := !pyIsSpace c && !(c == '/') && !(c == ',')

/-- Character class `[^\s,]` of the url-rule path capture. -/
def isUrlPathChar (c : Char) : Bool := !pyIsSpace c && !(c == ',')

/-- The optional scheme group `(?:((?:https?|wss?)://)?)` (convert.py
line 181).  At most one of the four literal schemes can be a prefix of
the input, so trying them longest-first is equivalent to the regex's
greedy alternation. -/
def stripSchemeCI (s : List Char) : Option (List Char) :=
  match matchCI "https://".toList s with
  | some r => some r
  | none =>
    match matchCI "http://".toList s with
    | some r => some r
    | none =>
      match matchCI "wss://".toList s with
      | some r => some r
      | none =>
        match matchCI "ws://".toList s with
        | some r => some r
        | none => none

/-- The part of the url regex after the optional scheme:
`([^\s\/,]+)(/[^\s,]*)?\s*,\s*reject\s*$`; returns the host and path
captures.  As with `parseTail`, the character classes exclude the
delimiters, so the greedy captures are deterministic. -/
def parseUrlAfter (s : List Char) : Option (List Char × List Char) :=
  let host := s.takeWhile isUrlHostChar
  if host = [] then none
  else
    let r1 := s.dropWhile isUrlHostChar
    let hasPath := r1.head? == some '/'
    let path := if hasPath then '/' :: r1.tail.takeWhile isUrlPathChar else []
    let r2 := if hasPath then r1.tail.dropWhile isUrlPathChar else r1
    (expectComma (dropWS r2)).bind (fun r3 =>
      if expectRejectEnd (dropWS r3) then some (host, path) else none)

/-- The url regex
`url\s*,\s*(?:((?:https?|wss?)://)?)([^\s\/,]+)(/[^\s,]*)?\s*,\s*reject\s*$`
(convert.py line 181).  The regex engine first tries the optional scheme
group non-empty; if the rest of the match then fails, it backtracks and
re-tries with the scheme group empty — `Option.orElse` reproduces exactly
that backtracking. -/
def parseUrlRule (s : List Char) : Option (List Char × List Char) :=
  (matchCI "url".toList s).bind (fun r0 =>
    (expectComma (dropWS r0)).bind (fun r1 =>
      let r2 := dropWS r1
      match stripSchemeCI r2 with
      | some r3 => (parseUrlAfter r3).orElse (fun _ => parseUrlAfter r2)
      | none => parseUrlAfter r2))

/-- `convert_rule_line` (convert.py lines 153-188): strip the line, try
the four rule regexes in order, and produce the converted rule text.
For the `host` rule a `'*'` or empty capture is rejected (line 164);
the empty case cannot arise because the capture is `[^\s,]+`. -/
def convert_rule_line (line : List Char) : Option (List Char) :=
  let s := pyStrip line
  match parseRejectRule "host" s with
  | some domain =>
    if domain = ['*'] ∨ domain = [] then none
    else some ("0.0.0.0 ".toList ++ domain)
  | none =>
    match parseRejectRule "host-suffix" s with
    | some suffix => some ("||".toList ++ suffix ++ "^".toList)
    | none =>
      match parseRejectRule "host-keyword" s with
      | some keyword => some ("||".toList ++ keyword ++ "^".toList)
      | none =>
        match parseUrlRule s with
        | some dp => some ("||".toList ++ dp.1 ++ dp.2 ++ "^".toList)
        | none => none

/-- `str.split()` with no argument (used in `is_whitelisted`,
convert.py line 108): split on runs of whitespace, discarding empty
pieces.  `acc` holds the characters of the current word, reversed. -/
def splitWSAux : List Char → List Char → List (List Char)
  | [], acc => if acc = [] then [] else [acc.reverse]
  | c :: rest, acc =>
    if pyIsSpace c then
      if acc = [] then splitWSAux rest []
      else acc.reverse :: splitWSAux rest []
    else splitWSAux rest (c :: acc)

/-- `str.split()` with no argument. -/
def pySplitWS (s : List Char) : List (List Char) := splitWSAux s []

/-- `str.split('/')[0]`: everything before the first `'/'` (equal to the
whole string when there is no `'/'`). -/
def splitSlashHead (s : List Char) : List Char := s.takeWhile (fun c => !(c == '/'))

/-- Domain extraction inside `is_whitelisted` (convert.py lines 106-110):
`rule.split()[1].lower()` for a hosts line, `rule[2:-1].split('/')[0].lower()`
for an AdGuard line, `None` otherwise.  (For a hosts line Python indexes
`split()[1]`, which raises `IndexError` if no second word exists; that
cannot happen for lines produced by `convert_rule_line`, whose domain
capture is a non-empty run of non-whitespace characters, and is modelled
as `none` here.) -/
def extractDomain (rule : List Char) : Option (List Char) :=
  if "0.0.0.0 ".toList.isPrefixOf rule then
    ((pySplitWS rule).get? 1).map pyLower
  else if "||".toList.isPrefixOf rule ∧ "^".toList.isSuffixOf rule then
    some (pyLower (splitSlashHead ((rule.drop 2).dropLast)))
  else none

/-- `is_whitelisted` (convert.py lines 100-116): extract the domain of a
converted rule and test it against the whitelist, by equality or by the
strict-subdomain test `domain.endswith('.' + wl)`.  Python's
`if not domain` treats both `None` and the empty string as "no domain". -/
def is_whitelisted (rule : List Char) (white_list : List (List Char)) : Bool :=
  if white_list = [] then false
  else
    match extractDomain rule with
    | none => false
    | some domain =>
      if domain = [] then false
      else white_list.any (fun wl => domain == wl || ('.' :: wl).isSuffixOf domain)

/-- The diagnostic comment for an unrecognized rule
(convert.py line 243). -/
def unrecognizedComment (s : List Char) : List Char :=
  "# 未识别规则：".toList ++ s

/-- The annotation for a line that does not contain `reject`
(convert.py line 227). -/
def skipComment (s : List Char) : List Char :=
  "# 跳过非 reject 规则：".toList ++ s

/-- The diagnostic comment for a whitelisted rule
(convert.py line 235). -/
def whitelistComment (s : List Char) : List Char :=
  "# 已过滤白名单规则：".toList ++ s

/-- Python's substring test `needle in hay`. -/
def containsSub (needle : List Char) : List Char → Bool
  | [] => needle.isEmpty
  | c :: rest => needle.isPrefixOf (c :: rest) || containsSub needle rest

/-- `'reject' in stripped.lower()` (convert.py line 226). -/
def containsReject (s : List Char) : Bool :=
  containsSub "reject".toList (pyLower s)

/-- The output header block (convert.py lines 193-205); the two
f-strings interpolate `URL_CONFIG_FILE` and `len(white_list)`. -/
def header (whiteCount : Nat) : List (List Char) :=
  [ "# ===============================".toList,
    "# 自动拉取+合并+转换自 QuantumultX 在线规则".toList,
    "# 规则来源配置：rules.txt".toList,
    ("# 白名单过滤：".toList ++ (Nat.repr whiteCount).toList ++ " 条规则".toList),
    "# 支持规则类型（已实现转换）：".toList,
    "#  - host, 域名, reject  -> hosts: 0.0.0.0 域名".toList,
    "#  - host-suffix, 域名后缀, reject -> AdGuard: ||域名^".toList,
    "#  - host-keyword, 关键词, reject -> AdGuard: ||关键词^".toList,
    "#  - url, 协议://域名/路径, reject -> AdGuard: ||域名/路径^".toList,
    "# 注：保留原注释行；未识别的规则会以注释形式写出以便人工检查".toList,
    "# ===============================\n".toList ]

/-- The run counters printed at the end of `merge_and_convert`
(convert.py lines 210-213, 254-259): raw input lines, converted rules
after deduplication, whitelist-filtered rules, unrecognized rules. -/
structure MergeCounters where
  raw : Nat
  converted : Nat
  whitelisted : Nat
  unrecognized : Nat
deriving Repr, DecidableEq

/-- The per-line loop of `merge_and_convert` (convert.py lines 215-244).
`conv` models the `converted` set of already-emitted rules; the result is
the emitted lines after the header together with the `converted_count`,
`whitelisted_count` and `unrecognized_count` totals of the remaining
iterations. -/
def mergeLoop (wl : List (List Char)) :
    List (List Char) → List (List Char) → List (List Char) × Nat × Nat × Nat
  | [], _ => ([], 0, 0, 0)
  | line :: rest, conv =>
    if line = [] then mergeLoop wl rest conv
    else
      let stripped := pyStrip line
      if "#".toList.isPrefixOf stripped then
        let r := mergeLoop wl rest conv
        (stripped :: r.1, r.2)
      else if !containsReject stripped then
        let r := mergeLoop wl rest conv
        (skipComment stripped :: r.1, r.2)
      else
        match convert_rule_line stripped with
        | some cr =>
          if is_whitelisted cr wl then
            let r := mergeLoop wl rest conv
            (whitelistComment cr :: r.1, r.2.1, r.2.2.1 + 1, r.2.2.2)
          else if cr ∈ conv then mergeLoop wl rest conv
          else
            let r := mergeLoop wl rest (cr :: conv)
            (cr :: r.1, r.2.1 + 1, r.2.2.1, r.2.2.2)
        | none =>
          let r := mergeLoop wl rest conv
          (unrecognizedComment stripped :: r.1, r.2.1, r.2.2.1, r.2.2.2 + 1)

/-- `merge_and_convert` up to the file write (convert.py lines 191-244):
the full output line sequence (header followed by the processed lines)
and the four counters. -/
def merge_and_convert (all_rules : List (List Char)) (white_list : List (List Char)) :
    List (List Char) × MergeCounters :=
  let r := mergeLoop white_list all_rules []
  (header white_list.length ++ r.1,
   ⟨all_rules.length, r.2.1, r.2.2.1, r.2.2.2⟩)

/-- The counter values in the order the summary prints them
(convert.py lines 256-259). -/
def countersList (c : MergeCounters) : List Nat :=
  [c.raw, c.converted, c.whitelisted, c.unrecognized]

/-- `"\n".join(out_lines)` (convert.py line 249). -/
def joinNL (lines : List (List Char)) : List Char :=
  List.intercalate ['\n'] lines

/-- Model of the output write (convert.py lines 246-252).  Python's
`open(output_file, 'w')` truncates the destination as soon as it is
opened, and `f.write` then appends characters; an `OSError` can be
raised after any number of characters has been written, in which case
the handler prints and calls `sys.exit(1)`.  `fault = none` models a
successful write, `fault = some k` an `OSError` raised after `k`
characters.  Returns the final destination content and the process exit
code. -/
def writeOutput (_previous : Option (List Char)) (content : List Char)
    (fault : Option Nat) : Option (List Char) × Nat :=
  match fault with
  | none => (some content, 0)
  | some k => (some (content.take k), 1)

/-- A byte of an HTTP response body. -/
abbrev Byte := Fin 256

/-- The `latin-1` codec: every byte 0–255 decodes to the code point of
the same value, so decoding never fails. -/
def latin1Decode (bs : List Byte) : Option (List Char) :=
  some (bs.map (fun b => Char.ofNat b.val))

/-- The decode loop of `fetch_single_url_rules` (convert.py
lines 131-138): try each codec in order, keep the first success. -/
def decodeLoop : List (List Byte → Option (List Char)) → List Byte → Option (List Char)
  | [], _ => none
  | d :: ds, bs =>
    match d bs with
    | some t => some t
    | none => decodeLoop ds bs

/-- `str.splitlines()` on its core line terminators `\n`, `\r`, `\r\n`
(convert.py line 142); no trailing empty line is produced. -/
def splitLinesAux : List Char → List Char → List (List Char)
  | [], acc => if acc = [] then [] else [acc.reverse]
  | '\r' :: '\n' :: rest, acc => acc.reverse :: splitLinesAux rest []
  | '\n' :: rest, acc => acc.reverse :: splitLinesAux rest []
  | '\r' :: rest, acc => acc.reverse :: splitLinesAux rest []
  | c :: rest, acc => splitLinesAux rest (c :: acc)

/-- `str.splitlines()`. -/
def pySplitLines (s : List Char) : List (List Char) := splitLinesAux s []

/-- The outcome of `requests.get(...)` + `raise_for_status()`: either a
response body, or any `requests.exceptions.RequestException`. -/
inductive FetchOutcome where
  | ok (content : List Byte)
  | requestError
deriving Repr

/-- `fetch_single_url_rules` (convert.py lines 119-150), parameterized
by the outcome of the HTTP request and by the external `utf-8-sig` and
`gbk` codecs (arbitrary partial decoders).  On a request exception the
function returns `[]`; otherwise it decodes with the first succeeding
codec and returns the stripped non-empty lines.  The `none` branch of
the decode loop corresponds to the `text is None` branch (convert.py
lines 139-140), whose raised error is caught and turned into `[]`. -/
def fetch_single_url_rules (utf8sig gbk : List Byte → Option (List Char))
    (outcome : FetchOutcome) : List (List Char) :=
  match outcome with
  | .requestError => []
  | .ok content =>
    match decodeLoop [utf8sig, gbk, latin1Decode] content with
    | some text => ((pySplitLines text).map pyStrip).filter (fun l => !(l = []))
    | none => []

/-- The deduplicated sequence of translated rules: keep the first
occurrence of each string, given the set `seen` of strings already
emitted.  This is the specification side of the dedup claim, to be
compared with what `merge_and_convert` emits. -/
def dedupSeen (seen : List (List Char)) : List (List Char) → List (List Char)
  | [] => []
  | x :: xs =>
    if x ∈ seen then dedupSeen seen xs
    else x :: dedupSeen (x :: seen) xs

/-- The sequence of successfully translated, non-whitelisted output
rules of an input, in input order and with duplicates retained; the
conditions mirror the branches of the `merge_and_convert` loop. -/
def translatedLines (wl : List (List Char)) (lines : List (List Char)) : List (List Char) :=
  lines.filterMap (fun line =>
    if line = [] then none
    else
      let stripped := pyStrip line
      if "#".toList.isPrefixOf stripped then none
      else if !containsReject stripped then none
      else
        match convert_rule_line stripped with
        | some cr => if is_whitelisted cr wl then none else some cr
        | none => none)

/-- Output lines exempt from deduplication: the comment lines, i.e.
everything starting with `'#'` (the header, preserved source comments and
the three kinds of diagnostic comments). -/
def nonComment (l : List Char) : Bool := !("#".toList.isPrefixOf l)

/-! ## Helper lemmas -/

theorem dropWhile_append_all {p : Char → Bool} {a : List Char} (b : List Char)
    (h : ∀ c ∈ a, p c = true) : (a ++ b).dropWhile p = b.dropWhile p := by
  induction a with
  | nil => rfl
  | cons c a ih =>
    simp only [List.cons_append, List.dropWhile_cons_of_pos (h c (by simp))]
    exact ih (fun x hx => h x (by simp [hx]))

theorem takeWhile_append_all {p : Char → Bool} {a : List Char} (b : List Char)
    (h : ∀ c ∈ a, p c = true) : (a ++ b).takeWhile p = a ++ b.takeWhile p := by
  induction a with
  | nil => rfl
  | cons c a ih =>
    simp only [List.cons_append, List.takeWhile_cons_of_pos (h c (by simp))]
    simp [ih (fun x hx => h x (by simp [hx]))]

theorem dropWhile_eq_nil_all {p : Char → Bool} {a : List Char}
    (h : ∀ c ∈ a, p c = true) : a.dropWhile p = [] := by
  have := dropWhile_append_all (p := p) (a := a) [] h
  simpa using this

theorem toLowerChar_of_space {c : Char} (h : pyIsSpace c = true) : toLowerChar c = c := by
  simp only [pyIsSpace, Bool.or_eq_true, beq_iff_eq] at h
  rcases h with ((((h | h) | h) | h) | h) | h <;> subst h <;> decide

theorem not_space_of_eqCI {d c : Char} (h : eqCI d c = true)
    (hc : pyIsSpace c = false) (hcl : toLowerChar c = c) : pyIsSpace d = false := by
  by_contra hd
  have hd' : pyIsSpace d = true := by
    cases hp : pyIsSpace d
    · exact absurd hp hd
    · rfl
  have h1 : toLowerChar d = toLowerChar c := of_decide_eq_true h
  rw [toLowerChar_of_space hd', hcl] at h1
  rw [h1] at hd'
  rw [hd'] at hc
  simp at hc

theorem eqCI_false_of_CI {x a b : Char} (h : eqCI a b = true) (hx : eqCI x b = false) :
    eqCI x a = false := by
  have h1 : toLowerChar a = toLowerChar b := of_decide_eq_true h
  simpa [eqCI, h1] using hx

theorem eqCI_symm (a b : Char) : eqCI a b = eqCI b a := by
  simp [eqCI, eq_comm]

theorem matchCI_append {pat a : List Char} (h : ciEq a pat = true) (q b : List Char) :
    matchCI (pat ++ q) (a ++ b) = matchCI q b := by
  induction pat generalizing a with
  | nil =>
    cases a with
    | nil => rfl
    | cons c cs => simp [ciEq] at h
  | cons p ps ih =>
    cases a with
    | nil => simp [ciEq] at h
    | cons c cs =>
      simp only [ciEq, Bool.and_eq_true] at h
      simp only [List.cons_append, matchCI]
      rw [if_pos (by rw [eqCI_symm]; exact h.1)]
      exact ih h.2

theorem matchCI_of_ciEq {pat a : List Char} (h : ciEq a pat = true) (b : List Char) :
    matchCI pat (a ++ b) = some b := by
  have := matchCI_append h [] b
  simpa using this

theorem matchCI_exact {pat a : List Char} (h : ciEq a pat = true) :
    matchCI pat a = some [] := by
  have := matchCI_of_ciEq h []
  simpa using this

theorem matchCI_cons_ne {p : Char} {ps : List Char} {c : Char} {s : List Char}
    (h : eqCI p c = false) : matchCI (p :: ps) (c :: s) = none := by
  simp [matchCI, h]

theorem ciEq_cons_inv {a : List Char} {b : Char} {bs : List Char}
    (h : ciEq a (b :: bs) = true) :
    ∃ c cs, a = c :: cs ∧ eqCI c b = true ∧ ciEq cs bs = true := by
  cases a with
  | nil => simp [ciEq] at h
  | cons c cs =>
    simp only [ciEq, Bool.and_eq_true] at h
    exact ⟨c, cs, rfl, h.1, h.2⟩

theorem ciEq_append {a b c d : List Char} (h1 : ciEq a c = true) (h2 : ciEq b d = true) :
    ciEq (a ++ b) (c ++ d) = true := by
  induction c generalizing a with
  | nil =>
    cases a with
    | nil => simpa using h2
    | cons x xs => simp [ciEq] at h1
  | cons x xs ih =>
    rcases ciEq_cons_inv h1 with ⟨y, ys, rfl, hy, hys⟩
    simp only [List.cons_append, ciEq, Bool.and_eq_true]
    exact ⟨hy, ih hys⟩

theorem ciEq_concat_inv {a : List Char} {b : List Char} {c : Char}
    (h : ciEq a (b ++ [c]) = true) :
    ∃ as d, a = as ++ [d] ∧ ciEq as b = true ∧ eqCI d c = true := by
  induction b generalizing a with
  | nil =>
    rcases ciEq_cons_inv h with ⟨x, xs, rfl, hx, hxs⟩
    cases xs with
    | nil => exact ⟨[], x, rfl, rfl, hx⟩
    | cons y ys => simp [ciEq] at hxs
  | cons x xs ih =>
    rcases ciEq_cons_inv h with ⟨y, ys, rfl, hy, hys⟩
    rcases ih hys with ⟨as, d, rfl, has, hd⟩
    exact ⟨y :: as, d, rfl, by simp [ciEq, hy, has], hd⟩

theorem space_not_token {c : Char} (h : pyIsSpace c = true) : isTokenChar c = false := by
  simp [isTokenChar, h]

theorem token_not_space {c : Char} (h : isTokenChar c = true) : pyIsSpace c = false := by
  simp only [isTokenChar, Bool.and_eq_true, Bool.not_eq_true'] at h
  exact h.1

theorem urlHost_not_space {c : Char} (h : isUrlHostChar c = true) : pyIsSpace c = false := by
  simp only [isUrlHostChar, Bool.and_eq_true, Bool.not_eq_true'] at h
  exact h.1.1

theorem urlPath_not_space {c : Char} (h : isUrlPathChar c = true) : pyIsSpace c = false := by
  simp only [isUrlPathChar, Bool.and_eq_true, Bool.not_eq_true'] at h
  exact h.1

theorem space_not_urlHost {c : Char} (h : pyIsSpace c = true) : isUrlHostChar c = false := by
  simp [isUrlHostChar, h]

theorem space_not_urlPath {c : Char} (h : pyIsSpace c = true) : isUrlPathChar c = false := by
  simp [isUrlPathChar, h]

/-- `str.strip()` of an all-whitespace prefix and suffix around a body
whose first and last characters are not whitespace. -/
theorem pyStrip_sandwich {w0 w5 m : List Char}
    (h0 : ∀ c ∈ w0, pyIsSpace c = true) (h5 : ∀ c ∈ w5, pyIsSpace c = true)
    (hm1 : ∃ c m', m = c :: m' ∧ pyIsSpace c = false)
    (hm2 : ∃ m'' d, m = m'' ++ [d] ∧ pyIsSpace d = false) :
    pyStrip (w0 ++ m ++ w5) = m := by
  rcases hm1 with ⟨c, m', hmc, hc⟩
  rcases hm2 with ⟨m'', d, hmd, hd⟩
  unfold pyStrip
  rw [List.append_assoc, dropWhile_append_all _ h0]
  rw [hmc, List.cons_append, List.dropWhile_cons_of_neg (by simp [hc]), ← List.cons_append, ← hmc]
  rw [List.reverse_append, dropWhile_append_all _ (by
    intro x hx
    exact h5 x (by simpa using hx))]
  rw [hmd, List.reverse_append, List.reverse_singleton, List.singleton_append,
    List.dropWhile_cons_of_neg (by simp [hd])]
  simp

theorem dropWS_ws_cons {w : List Char} {x : Char} (r : List Char)
    (hw : ∀ c ∈ w, pyIsSpace c = true) (hx : pyIsSpace x = false) :
    dropWS (w ++ x :: r) = x :: r := by
  unfold dropWS
  rw [dropWhile_append_all _ hw, List.dropWhile_cons_of_neg (by simp [hx])]

theorem dropWS_all {w : List Char} (hw : ∀ c ∈ w, pyIsSpace c = true) :
    dropWS w = [] :=
  dropWhile_eq_nil_all hw

theorem expectComma_comma (r : List Char) : expectComma (',' :: r) = some r := by
  simp [expectComma]

theorem expectRejectEnd_of_ciEq {rj w5 : List Char} (hrj : ciEq rj "reject".toList = true)
    (h5 : ∀ c ∈ w5, pyIsSpace c = true) : expectRejectEnd (rj ++ w5) = true := by
  unfold expectRejectEnd
  rw [matchCI_of_ciEq hrj w5]
  simp [dropWS_all h5]

theorem expectRejectEnd_exact {rj : List Char} (hrj : ciEq rj "reject".toList = true) :
    expectRejectEnd rj = true := by
  have := @expectRejectEnd_of_ciEq rj [] hrj (by simp)
  simpa using this

theorem takeWhile_all_append {p : Char → Bool} {a b : List Char}
    (h : ∀ c ∈ a, p c = true) (hb : b.takeWhile p = []) : (a ++ b).takeWhile p = a := by
  rw [takeWhile_append_all _ h, hb, List.append_nil]

theorem dropWhile_all_append {p : Char → Bool} {a b : List Char}
    (h : ∀ c ∈ a, p c = true) (hb : b.dropWhile p = b) : (a ++ b).dropWhile p = b := by
  rw [dropWhile_append_all _ h, hb]

theorem wsComma_takeWhile_nil {q : Char → Bool} {w : List Char} (z : List Char)
    (hq : ∀ c, pyIsSpace c = true → q c = false) (hcomma : q ',' = false)
    (hw : ∀ c ∈ w, pyIsSpace c = true) : (w ++ ',' :: z).takeWhile q = [] := by
  cases w with
  | nil => simpa using List.takeWhile_cons_of_neg (p := q) (l := z) (by simp [hcomma])
  | cons c w' =>
    simpa using List.takeWhile_cons_of_neg (p := q) (l := w' ++ ',' :: z)
      (by simp [hq c (hw c (by simp))])

theorem wsComma_dropWhile_self {q : Char → Bool} {w : List Char} (z : List Char)
    (hq : ∀ c, pyIsSpace c = true → q c = false) (hcomma : q ',' = false)
    (hw : ∀ c ∈ w, pyIsSpace c = true) : (w ++ ',' :: z).dropWhile q = w ++ ',' :: z := by
  cases w with
  | nil => simpa using List.dropWhile_cons_of_neg (p := q) (l := z) (by simp [hcomma])
  | cons c w' =>
    simpa using List.dropWhile_cons_of_neg (p := q) (l := w' ++ ',' :: z)
      (by simp [hq c (hw c (by simp))])

/-- Full evaluation of `parseTail` on a well-formed rule tail
`\s*,\s*tok\s*,\s*reject` with no trailing whitespace (the caller has
already stripped the line). -/
theorem parseTail_eq {w1 w2 w3 w4 tok rj : List Char}
    (h1 : ∀ c ∈ w1, pyIsSpace c = true) (h2 : ∀ c ∈ w2, pyIsSpace c = true)
    (h3 : ∀ c ∈ w3, pyIsSpace c = true) (h4 : ∀ c ∈ w4, pyIsSpace c = true)
    (htok : tok ≠ []) (htokc : ∀ c ∈ tok, isTokenChar c = true)
    (hrj : ciEq rj "reject".toList = true) :
    parseTail (w1 ++ ',' :: (w2 ++ (tok ++ (w3 ++ ',' :: (w4 ++ rj))))) = some tok := by
  obtain ⟨t0, tok', rfl⟩ := List.exists_cons_of_ne_nil htok
  obtain ⟨r0, rj', rfl⟩ :=
    List.exists_cons_of_ne_nil (l := rj) (by rintro rfl; simp [ciEq] at hrj)
  have hrjhead : pyIsSpace r0 = false := by
    obtain ⟨c, cs, hc, he, -⟩ := ciEq_cons_inv hrj
    cases hc
    exact not_space_of_eqCI he (by decide) (by decide)
  have htokhead : pyIsSpace t0 = false := token_not_space (htokc t0 (by simp))
  unfold parseTail
  rw [dropWS_ws_cons _ h1 (by decide), expectComma_comma]
  simp only [Option.bind]
  have hr2 : dropWS (w2 ++ ((t0 :: tok') ++ (w3 ++ ',' :: (w4 ++ r0 :: rj')))) =
      (t0 :: tok') ++ (w3 ++ ',' :: (w4 ++ r0 :: rj')) := by
    unfold dropWS
    rw [dropWhile_append_all _ h2]
    simpa using List.dropWhile_cons_of_neg (p := pyIsSpace)
      (l := tok' ++ (w3 ++ ',' :: (w4 ++ r0 :: rj'))) (by simp [htokhead])
  rw [hr2]
  have htake : ((t0 :: tok') ++ (w3 ++ ',' :: (w4 ++ r0 :: rj'))).takeWhile isTokenChar
      = t0 :: tok' :=
    takeWhile_all_append htokc
      (wsComma_takeWhile_nil _ (fun c h => space_not_token h) (by decide) h3)
  have hdrop : ((t0 :: tok') ++ (w3 ++ ',' :: (w4 ++ r0 :: rj'))).dropWhile isTokenChar
      = w3 ++ ',' :: (w4 ++ r0 :: rj') :=
    dropWhile_all_append htokc
      (wsComma_dropWhile_self _ (fun c h => space_not_token h) (by decide) h3)
  rw [htake, hdrop]
  rw [if_neg (by simp)]
  rw [dropWS_ws_cons _ h3 (by decide), expectComma_comma]
  simp only [Option.bind]
  rw [dropWS_ws_cons _ h4 hrjhead]
  rw [if_pos (expectRejectEnd_exact hrj)]

theorem some_beq_some (a b : Char) : ((some a : Option Char) == some b) = (a == b) := rfl

theorem space_ne_char {c x : Char} (hc : pyIsSpace c = true) (hx : pyIsSpace x = false) :
    (c == x) = false := by
  cases h : c == x
  · rfl
  · exfalso
    have hcx : c = x := eq_of_beq h
    subst hcx
    rw [hc] at hx
    simp at hx

theorem wsComma_head_not_slash {w : List Char} (z : List Char)
    (hw : ∀ c ∈ w, pyIsSpace c = true) :
    ((w ++ ',' :: z).head? == some '/') = false := by
  cases w with
  | nil =>
    simp only [List.nil_append, List.head?_cons, some_beq_some]
    decide
  | cons c w' =>
    simp only [List.cons_append, List.head?_cons, some_beq_some]
    exact space_ne_char (hw c (by simp)) (by decide)

theorem ciEq_refl (a : List Char) : ciEq a a = true := by
  induction a with
  | nil => rfl
  | cons c cs ih => simp [ciEq, eqCI, ih]

theorem ciEq_head_not_space {a : List Char} {b : Char} {bs : List Char}
    (h : ciEq a (b :: bs) = true) (hb : pyIsSpace b = false) (hbl : toLowerChar b = b) :
    ∃ c cs, a = c :: cs ∧ pyIsSpace c = false := by
  rcases ciEq_cons_inv h with ⟨c, cs, rfl, hc, -⟩
  exact ⟨c, cs, rfl, not_space_of_eqCI hc hb hbl⟩

theorem ciEq_last_not_space {a : List Char} {b : List Char} {d : Char}
    (h : ciEq a (b ++ [d]) = true) (hd : pyIsSpace d = false) (hdl : toLowerChar d = d) :
    ∃ a' c, a = a' ++ [c] ∧ pyIsSpace c = false := by
  rcases ciEq_concat_inv h with ⟨as, c, rfl, -, hc⟩
  exact ⟨as, c, rfl, not_space_of_eqCI hc hd hdl⟩

theorem expectComma_not_comma {c : Char} (s : List Char) (h : ¬ c = ',') :
    expectComma (c :: s) = none := by
  simp only [expectComma]
  rw [if_neg h]

theorem parseTail_dash (s : List Char) : parseTail ('-' :: s) = none := by
  unfold parseTail
  have hd : dropWS ('-' :: s) = '-' :: s := by
    unfold dropWS
    exact List.dropWhile_cons_of_neg (by decide)
  rw [hd, expectComma_not_comma s (by decide)]
  rfl

theorem parseRejectRule_of_ciEq {kw : String} {a : List Char} (h : ciEq a kw.toList = true)
    (tail : List Char) : parseRejectRule kw (a ++ tail) = parseTail tail := by
  unfold parseRejectRule
  rw [matchCI_of_ciEq h]

theorem parseRejectRule_ne_head {kw : String} {p0 : Char} {ps : List Char}
    (hlit : kw.toList = p0 :: ps) {a0 : Char} (as tail : List Char)
    (hne : eqCI p0 a0 = false) :
    parseRejectRule kw ((a0 :: as) ++ tail) = none := by
  unfold parseRejectRule
  rw [hlit, List.cons_append, matchCI_cons_ne hne]

/-- Reduction of `convert_rule_line` when the `host` regex matches. -/
theorem convert_of_host {line tok : List Char}
    (h : parseRejectRule "host" (pyStrip line) = some tok) :
    convert_rule_line line =
      if tok = ['*'] ∨ tok = [] then none else some ("0.0.0.0 ".toList ++ tok) := by
  simp only [convert_rule_line, h]

/-- Reduction of `convert_rule_line` when only the `host-suffix` regex
matches. -/
theorem convert_of_hostSuffix {line tok : List Char}
    (hh : parseRejectRule "host" (pyStrip line) = none)
    (h : parseRejectRule "host-suffix" (pyStrip line) = some tok) :
    convert_rule_line line = some ("||".toList ++ tok ++ "^".toList) := by
  simp only [convert_rule_line, hh, h]

/-- Reduction of `convert_rule_line` when only the `host-keyword` regex
matches. -/
theorem convert_of_hostKeyword {line tok : List Char}
    (hh : parseRejectRule "host" (pyStrip line) = none)
    (hs : parseRejectRule "host-suffix" (pyStrip line) = none)
    (h : parseRejectRule "host-keyword" (pyStrip line) = some tok) :
    convert_rule_line line = some ("||".toList ++ tok ++ "^".toList) := by
  simp only [convert_rule_line, hh, hs, h]

/-- Reduction of `convert_rule_line` when only the `url` regex matches. -/
theorem convert_of_url {line host path : List Char}
    (hh : parseRejectRule "host" (pyStrip line) = none)
    (hs : parseRejectRule "host-suffix" (pyStrip line) = none)
    (hk : parseRejectRule "host-keyword" (pyStrip line) = none)
    (h : parseUrlRule (pyStrip line) = some (host, path)) :
    convert_rule_line line = some ("||".toList ++ host ++ path ++ "^".toList) := by
  simp only [convert_rule_line, hh, hs, hk, h]

theorem parseRejectRule_none {kw : String} {s : List Char}
    (h : matchCI kw.toList s = none) : parseRejectRule kw s = none := by
  unfold parseRejectRule
  rw [h]

/-- Full evaluation of `parseUrlAfter` on a well-formed host and
optional path followed by `\s*,\s*reject` with no trailing whitespace. -/
theorem parseUrlAfter_eq {host path w3 w4 rj : List Char}
    (hhost : host ≠ []) (hhostc : ∀ c ∈ host, isUrlHostChar c = true)
    (hpath : path = [] ∨ ∃ p, path = '/' :: p ∧ ∀ c ∈ p, isUrlPathChar c = true)
    (h3 : ∀ c ∈ w3, pyIsSpace c = true) (h4 : ∀ c ∈ w4, pyIsSpace c = true)
    (hrj : ciEq rj "reject".toList = true) :
    parseUrlAfter (host ++ (path ++ (w3 ++ ',' :: (w4 ++ rj)))) = some (host, path) := by
  obtain ⟨r0, rj', hrjd, hr0⟩ :=
    ciEq_head_not_space (show ciEq rj ('r' :: "eject".toList) = true from hrj)
      (by decide) (by decide)
  have hrjdrop : dropWS (w4 ++ rj) = rj := by
    rw [hrjd]
    exact dropWS_ws_cons _ h4 hr0
  have hZcomma : dropWS (w3 ++ ',' :: (w4 ++ rj)) = ',' :: (w4 ++ rj) :=
    dropWS_ws_cons _ h3 (by decide)
  rcases hpath with rfl | ⟨p, rfl, hp⟩
  · have htake : (host ++ ([] ++ (w3 ++ ',' :: (w4 ++ rj)))).takeWhile isUrlHostChar
        = host := by
      rw [List.nil_append]
      exact takeWhile_all_append hhostc
        (wsComma_takeWhile_nil _ (fun c h => space_not_urlHost h) (by decide) h3)
    have hdropw : (host ++ ([] ++ (w3 ++ ',' :: (w4 ++ rj)))).dropWhile isUrlHostChar
        = w3 ++ ',' :: (w4 ++ rj) := by
      rw [List.nil_append]
      exact dropWhile_all_append hhostc
        (wsComma_dropWhile_self _ (fun c h => space_not_urlHost h) (by decide) h3)
    have hhead : ((w3 ++ ',' :: (w4 ++ rj)).head? == some '/') = false :=
      wsComma_head_not_slash _ h3
    simp only [parseUrlAfter, htake, hdropw, hhead, if_neg hhost, Bool.false_eq_true,
      if_false, hZcomma, expectComma_comma, Option.bind, hrjdrop,
      expectRejectEnd_exact hrj, if_true]
  · have htake : (host ++ (('/' :: p) ++ (w3 ++ ',' :: (w4 ++ rj)))).takeWhile isUrlHostChar
        = host := by
      refine takeWhile_all_append hhostc ?_
      simpa using List.takeWhile_cons_of_neg (p := isUrlHostChar)
        (l := p ++ (w3 ++ ',' :: (w4 ++ rj))) (by decide)
    have hdropw : (host ++ (('/' :: p) ++ (w3 ++ ',' :: (w4 ++ rj)))).dropWhile isUrlHostChar
        = '/' :: (p ++ (w3 ++ ',' :: (w4 ++ rj))) := by
      refine dropWhile_all_append hhostc ?_
      simpa using List.dropWhile_cons_of_neg (p := isUrlHostChar)
        (l := p ++ (w3 ++ ',' :: (w4 ++ rj))) (by decide)
    have hhead : (('/' :: (p ++ (w3 ++ ',' :: (w4 ++ rj)))).head? == some '/') = true := by
      simp only [List.head?_cons, some_beq_some]
      decide
    have hptake : (p ++ (w3 ++ ',' :: (w4 ++ rj))).takeWhile isUrlPathChar = p :=
      takeWhile_all_append hp
        (wsComma_takeWhile_nil _ (fun c h => space_not_urlPath h) (by decide) h3)
    have hpdrop : (p ++ (w3 ++ ',' :: (w4 ++ rj))).dropWhile isUrlPathChar
        = w3 ++ ',' :: (w4 ++ rj) :=
      dropWhile_all_append hp
        (wsComma_dropWhile_self _ (fun c h => space_not_urlPath h) (by decide) h3)
    simp only [parseUrlAfter, htake, hdropw, hhead, if_neg hhost, if_true,
      List.tail_cons, hptake, hpdrop, hZcomma, expectComma_comma, Option.bind,
      hrjdrop, expectRejectEnd_exact hrj]

theorem stripSchemeCI_https {l A : List Char} (h : ciEq l "https".toList = true) :
    stripSchemeCI (l ++ ("://".toList ++ A)) = some A := by
  unfold stripSchemeCI
  have h1 : matchCI "https://".toList (l ++ ("://".toList ++ A)) = some A := by
    rw [show ("https://".toList : List Char) = "https".toList ++ "://".toList from by decide]
    rw [matchCI_append h "://".toList ("://".toList ++ A)]
    exact matchCI_of_ciEq (ciEq_refl _) A
  rw [h1]

theorem stripSchemeCI_http {l A : List Char} (h : ciEq l "http".toList = true) :
    stripSchemeCI (l ++ ("://".toList ++ A)) = some A := by
  unfold stripSchemeCI
  have hfail : matchCI "https://".toList (l ++ ("://".toList ++ A)) = none := by
    rw [show ("https://".toList : List Char) = "http".toList ++ "s://".toList from by decide]
    rw [matchCI_append h "s://".toList ("://".toList ++ A)]
    rw [show ("s://".toList : List Char) = 's' :: "://".toList from rfl]
    rw [show (("://".toList : List Char) ++ A) = ':' :: ("//".toList ++ A) from rfl]
    exact matchCI_cons_ne (by decide)
  have hok : matchCI "http://".toList (l ++ ("://".toList ++ A)) = some A := by
    rw [show ("http://".toList : List Char) = "http".toList ++ "://".toList from by decide]
    rw [matchCI_append h "://".toList ("://".toList ++ A)]
    exact matchCI_of_ciEq (ciEq_refl _) A
  rw [hfail, hok]

theorem stripSchemeCI_wss {l A : List Char} (h : ciEq l "wss".toList = true) :
    stripSchemeCI (l ++ ("://".toList ++ A)) = some A := by
  obtain ⟨l0, ls, hld, hl0, -⟩ :=
    ciEq_cons_inv (show ciEq l ('w' :: "ss".toList) = true from h)
  unfold stripSchemeCI
  have hfail1 : matchCI "https://".toList (l ++ ("://".toList ++ A)) = none := by
    rw [hld, show ("https://".toList : List Char) = 'h' :: "ttps://".toList from rfl,
      List.cons_append]
    exact matchCI_cons_ne (eqCI_false_of_CI hl0 (by decide))
  have hfail2 : matchCI "http://".toList (l ++ ("://".toList ++ A)) = none := by
    rw [hld, show ("http://".toList : List Char) = 'h' :: "ttp://".toList from rfl,
      List.cons_append]
    exact matchCI_cons_ne (eqCI_false_of_CI hl0 (by decide))
  have hok : matchCI "wss://".toList (l ++ ("://".toList ++ A)) = some A := by
    rw [show ("wss://".toList : List Char) = "wss".toList ++ "://".toList from by decide]
    rw [matchCI_append h "://".toList ("://".toList ++ A)]
    exact matchCI_of_ciEq (ciEq_refl _) A
  rw [hfail1, hfail2, hok]

theorem stripSchemeCI_ws {l A : List Char} (h : ciEq l "ws".toList = true) :
    stripSchemeCI (l ++ ("://".toList ++ A)) = some A := by
  obtain ⟨l0, ls, hld, hl0, -⟩ :=
    ciEq_cons_inv (show ciEq l ('w' :: "s".toList) = true from h)
  unfold stripSchemeCI
  have hfail1 : matchCI "https://".toList (l ++ ("://".toList ++ A)) = none := by
    rw [hld, show ("https://".toList : List Char) = 'h' :: "ttps://".toList from rfl,
      List.cons_append]
    exact matchCI_cons_ne (eqCI_false_of_CI hl0 (by decide))
  have hfail2 : matchCI "http://".toList (l ++ ("://".toList ++ A)) = none := by
    rw [hld, show ("http://".toList : List Char) = 'h' :: "ttp://".toList from rfl,
      List.cons_append]
    exact matchCI_cons_ne (eqCI_false_of_CI hl0 (by decide))
  have hfail3 : matchCI "wss://".toList (l ++ ("://".toList ++ A)) = none := by
    rw [show ("wss://".toList : List Char) = "ws".toList ++ "s://".toList from by decide]
    rw [matchCI_append h "s://".toList ("://".toList ++ A)]
    rw [show ("s://".toList : List Char) = 's' :: "://".toList from rfl]
    rw [show (("://".toList : List Char) ++ A) = ':' :: ("//".toList ++ A) from rfl]
    exact matchCI_cons_ne (by decide)
  have hok : matchCI "ws://".toList (l ++ ("://".toList ++ A)) = some A := by
    rw [show ("ws://".toList : List Char) = "ws".toList ++ "://".toList from by decide]
    rw [matchCI_append h "://".toList ("://".toList ++ A)]
    exact matchCI_of_ciEq (ciEq_refl _) A
  rw [hfail1, hfail2, hfail3, hok]

theorem dropWS_ws_head {w a : List Char} (r : List Char)
    (hw : ∀ c ∈ w, pyIsSpace c = true) {a0 : Char} {as : List Char}
    (ha : a = a0 :: as) (h0 : pyIsSpace a0 = false) :
    dropWS (w ++ (a ++ r)) = a ++ r := by
  subst ha
  rw [List.cons_append]
  exact dropWS_ws_cons _ hw h0

/-- Full evaluation of the url regex on a well-formed url rule line, with
and without one of the four schemes.  In the scheme-less case the
hypothesis `stripSchemeCI ... = none` states that the host/path part does
not itself begin with a scheme (otherwise the regex would consume it as
the scheme group — the line would be a different, ambiguous decomposition
of the same grammar). -/
theorem parseUrlRule_eq {kw w1 w2 sch host path w3 w4 rj : List Char}
    (hkw : ciEq kw "url".toList = true)
    (h1 : ∀ c ∈ w1, pyIsSpace c = true) (h2 : ∀ c ∈ w2, pyIsSpace c = true)
    (h3 : ∀ c ∈ w3, pyIsSpace c = true) (h4 : ∀ c ∈ w4, pyIsSpace c = true)
    (hhost : host ≠ []) (hhostc : ∀ c ∈ host, isUrlHostChar c = true)
    (hpath : path = [] ∨ ∃ p, path = '/' :: p ∧ ∀ c ∈ p, isUrlPathChar c = true)
    (hrj : ciEq rj "reject".toList = true)
    (hsch : (sch = [] ∧
        stripSchemeCI (host ++ (path ++ (w3 ++ ',' :: (w4 ++ rj)))) = none)
      ∨ (∃ l, sch = l ++ "://".toList ∧
          (ciEq l "http".toList = true ∨ ciEq l "https".toList = true ∨
           ciEq l "ws".toList = true ∨ ciEq l "wss".toList = true))) :
    parseUrlRule
        (kw ++ (w1 ++ ',' :: (w2 ++ (sch ++ (host ++ (path ++ (w3 ++ ',' :: (w4 ++ rj))))))))
      = some (host, path) := by
  unfold parseUrlRule
  rw [matchCI_of_ciEq hkw]
  simp only [Option.bind]
  rw [dropWS_ws_cons _ h1 (by decide), expectComma_comma]
  simp only [Option.bind]
  rcases hsch with ⟨rfl, hnone⟩ | ⟨l, rfl, hl⟩
  · obtain ⟨hh0, hhs, hhd⟩ := List.exists_cons_of_ne_nil hhost
    have hh0s : pyIsSpace hh0 = false :=
      urlHost_not_space (hhostc hh0 (by rw [hhd]; simp))
    rw [List.nil_append]
    rw [dropWS_ws_head (path ++ (w3 ++ ',' :: (w4 ++ rj))) h2 hhd hh0s]
    rw [hnone]
    exact parseUrlAfter_eq hhost hhostc hpath h3 h4 hrj
  · have hstep : ∀ (hsome : stripSchemeCI
        (l ++ ("://".toList ++ (host ++ (path ++ (w3 ++ ',' :: (w4 ++ rj))))))
          = some (host ++ (path ++ (w3 ++ ',' :: (w4 ++ rj)))))
        (l0 : Char) (ls : List Char), l = l0 :: ls → pyIsSpace l0 = false →
        (match stripSchemeCI (dropWS (w2 ++ ((l ++ "://".toList) ++
            (host ++ (path ++ (w3 ++ ',' :: (w4 ++ rj))))))) with
          | some r3 => (parseUrlAfter r3).orElse (fun _ => parseUrlAfter
              (dropWS (w2 ++ ((l ++ "://".toList) ++
                (host ++ (path ++ (w3 ++ ',' :: (w4 ++ rj))))))))
          | none => parseUrlAfter (dropWS (w2 ++ ((l ++ "://".toList) ++
              (host ++ (path ++ (w3 ++ ',' :: (w4 ++ rj)))))))) = some (host, path) := by
      intro hsome l0 ls hld hl0
      rw [dropWS_ws_head _ h2
        (show (l ++ "://".toList : List Char) = l0 :: (ls ++ "://".toList) from by
          rw [hld]; rfl) hl0]
      rw [List.append_assoc l "://".toList]
      rw [hsome]
      simp only [parseUrlAfter_eq hhost hhostc hpath h3 h4 hrj, Option.orElse]
    rcases hl with h | h | h | h
    · obtain ⟨l0, ls, hld, hl0, -⟩ :=
        ciEq_cons_inv (show ciEq l ('h' :: "ttp".toList) = true from h)
      exact hstep (stripSchemeCI_http h) l0 ls hld
        (not_space_of_eqCI hl0 (by decide) (by decide))
    · obtain ⟨l0, ls, hld, hl0, -⟩ :=
        ciEq_cons_inv (show ciEq l ('h' :: "ttps".toList) = true from h)
      exact hstep (stripSchemeCI_https h) l0 ls hld
        (not_space_of_eqCI hl0 (by decide) (by decide))
    · obtain ⟨l0, ls, hld, hl0, -⟩ :=
        ciEq_cons_inv (show ciEq l ('w' :: "s".toList) = true from h)
      exact hstep (stripSchemeCI_ws h) l0 ls hld
        (not_space_of_eqCI hl0 (by decide) (by decide))
    · obtain ⟨l0, ls, hld, hl0, -⟩ :=
        ciEq_cons_inv (show ciEq l ('w' :: "ss".toList) = true from h)
      exact hstep (stripSchemeCI_wss h) l0 ls hld
        (not_space_of_eqCI hl0 (by decide) (by decide))

theorem hashIsFirst (l : List Char) : "#".toList.isPrefixOf ('#' :: l) = true := by
  show List.isPrefixOf ['#'] ('#' :: l) = true
  simp [List.isPrefixOf]

theorem hashNotFirst {c : Char} (l : List Char) (hc : ('#' == c) = false) :
    "#".toList.isPrefixOf (c :: l) = false := by
  show List.isPrefixOf ['#'] (c :: l) = false
  simp [List.isPrefixOf, hc]

theorem nonComment_false_of_hash {l : List Char} (h : ∃ t, l = '#' :: t) :
    nonComment l = false := by
  obtain ⟨t, rfl⟩ := h
  unfold nonComment
  rw [hashIsFirst]
  rfl

/-- A successfully converted rule never starts with `'#'`: it is
`0.0.0.0 …` or `||…^`. -/
theorem convert_not_comment {line r : List Char}
    (h : convert_rule_line line = some r) : nonComment r = true := by
  simp only [convert_rule_line] at h
  split at h
  · split at h
    · exact absurd h (by simp)
    · rw [← Option.some_inj.mp h]
      unfold nonComment
      rw [show ("0.0.0.0 ".toList ++ _ : List Char) = '0' :: (".0.0.0 ".toList ++ _) from rfl]
      rw [hashNotFirst _ (by decide)]
      rfl
  · split at h
    · rw [← Option.some_inj.mp h]
      unfold nonComment
      rw [show ("||".toList ++ _ ++ "^".toList : List Char)
          = '|' :: (("|".toList ++ _) ++ "^".toList) from rfl]
      rw [hashNotFirst _ (by decide)]
      rfl
    · split at h
      · rw [← Option.some_inj.mp h]
        unfold nonComment
        rw [show ("||".toList ++ _ ++ "^".toList : List Char)
            = '|' :: (("|".toList ++ _) ++ "^".toList) from rfl]
        rw [hashNotFirst _ (by decide)]
        rfl
      · split at h
        · rw [← Option.some_inj.mp h]
          unfold nonComment
          rw [show ("||".toList ++ _ ++ _ ++ "^".toList : List Char)
              = '|' :: ((("|".toList ++ _) ++ _) ++ "^".toList) from rfl]
          rw [hashNotFirst _ (by decide)]
          rfl
        · exact absurd h (by simp)

theorem header_filter (n : Nat) : (header n).filter nonComment = [] := by
  refine List.filter_eq_nil_iff.mpr ?_
  intro a ha
  simp only [header, List.mem_cons, List.not_mem_nil, or_false] at ha
  rcases ha with rfl | rfl | rfl | rfl | rfl | rfl | rfl | rfl | rfl | rfl | rfl
  · decide
  · decide
  · decide
  · simp only [Bool.not_eq_true]
    exact nonComment_false_of_hash ⟨_, rfl⟩
  · decide
  · decide
  · decide
  · decide
  · decide
  · decide
  · decide

/-- The non-comment lines emitted by the `merge_and_convert` loop are
exactly the translated, non-whitelisted rules deduplicated by first
occurrence (relative to the already-seen set `conv`). -/
theorem mergeLoop_filter (wl : List (List Char)) (lines : List (List Char)) :
    ∀ conv, ((mergeLoop wl lines conv).1).filter nonComment
      = dedupSeen conv (translatedLines wl lines) := by
  induction lines with
  | nil =>
    intro conv
    simp [mergeLoop, translatedLines, dedupSeen]
  | cons line rest ih =>
    intro conv
    by_cases hemp : line = []
    · have h1 : mergeLoop wl (line :: rest) conv = mergeLoop wl rest conv := by
        simp [mergeLoop, hemp]
      have h2 : translatedLines wl (line :: rest) = translatedLines wl rest := by
        simp [translatedLines, hemp]
      rw [h1, h2]
      exact ih conv
    · by_cases hcom : ['#'] <+: pyStrip line
      · have h1 : (mergeLoop wl (line :: rest) conv).1
            = pyStrip line :: (mergeLoop wl rest conv).1 := by
          simp [mergeLoop, hemp, hcom]
        have h2 : translatedLines wl (line :: rest) = translatedLines wl rest := by
          simp [translatedLines, hemp, hcom]
        rw [h1, h2, List.filter_cons_of_neg (by simp [nonComment, hcom])]
        exact ih conv
      · by_cases hrej : containsReject (pyStrip line) = true
        · cases hconv : convert_rule_line (pyStrip line) with
          | none =>
            have h1 : (mergeLoop wl (line :: rest) conv).1
                = unrecognizedComment (pyStrip line) :: (mergeLoop wl rest conv).1 := by
              simp [mergeLoop, hemp, hcom, hrej, hconv]
            have h2 : translatedLines wl (line :: rest) = translatedLines wl rest := by
              simp [translatedLines, hemp, hcom, hrej, hconv]
            rw [h1, h2, List.filter_cons_of_neg
              (by simp [nonComment_false_of_hash (l := unrecognizedComment (pyStrip line)) ⟨_, rfl⟩])]
            exact ih conv
          | some cr =>
            by_cases hwl : is_whitelisted cr wl = true
            · have h1 : (mergeLoop wl (line :: rest) conv).1
                  = whitelistComment cr :: (mergeLoop wl rest conv).1 := by
                simp [mergeLoop, hemp, hcom, hrej, hconv, hwl]
              have h2 : translatedLines wl (line :: rest) = translatedLines wl rest := by
                simp [translatedLines, hemp, hcom, hrej, hconv, hwl]
              rw [h1, h2, List.filter_cons_of_neg
                (by simp [nonComment_false_of_hash (l := whitelistComment cr) ⟨_, rfl⟩])]
              exact ih conv
            · have hwl' : is_whitelisted cr wl = false := by simpa using hwl
              have h2 : translatedLines wl (line :: rest)
                  = cr :: translatedLines wl rest := by
                simp [translatedLines, hemp, hcom, hrej, hconv, hwl']
              by_cases hdup : cr ∈ conv
              · have h1 : mergeLoop wl (line :: rest) conv = mergeLoop wl rest conv := by
                  simp [mergeLoop, hemp, hcom, hrej, hconv, hwl', hdup]
                rw [h1, h2]
                rw [show dedupSeen conv (cr :: translatedLines wl rest)
                    = dedupSeen conv (translatedLines wl rest) from by
                  simp [dedupSeen, hdup]]
                exact ih conv
              · have h1 : (mergeLoop wl (line :: rest) conv).1
                    = cr :: (mergeLoop wl rest (cr :: conv)).1 := by
                  simp [mergeLoop, hemp, hcom, hrej, hconv, hwl', hdup]
                rw [h1, h2, List.filter_cons_of_pos (by simp [convert_not_comment hconv])]
                rw [show dedupSeen conv (cr :: translatedLines wl rest)
                    = cr :: dedupSeen (cr :: conv) (translatedLines wl rest) from by
                  simp [dedupSeen, hdup]]
                rw [ih (cr :: conv)]
        · have hrej' : containsReject (pyStrip line) = false := by simpa using hrej
          have h1 : (mergeLoop wl (line :: rest) conv).1
              = skipComment (pyStrip line) :: (mergeLoop wl rest conv).1 := by
            simp [mergeLoop, hemp, hcom, hrej']
          have h2 : translatedLines wl (line :: rest) = translatedLines wl rest := by
            simp [translatedLines, hemp, hcom, hrej']
          rw [h1, h2, List.filter_cons_of_neg
            (by simp [nonComment_false_of_hash (l := skipComment (pyStrip line)) ⟨_, rfl⟩])]
          exact ih conv

/-- Whole-pipeline version of `mergeLoop_filter`. -/
theorem merge_filter (lines wl : List (List Char)) :
    ((merge_and_convert lines wl).1).filter nonComment
      = dedupSeen [] (translatedLines wl lines) := by
  unfold merge_and_convert
  simp only [List.filter_append]
  rw [header_filter, List.nil_append]
  exact mergeLoop_filter wl lines []

theorem isPrefixOf_append (l t : List Char) : l.isPrefixOf (l ++ t) = true := by
  induction l with
  | nil => simp [List.isPrefixOf]
  | cons c cs ih => simp [List.isPrefixOf, ih]

theorem isPrefixOf_cons_ne {a : Char} (as : List Char) {b : Char} (bs : List Char)
    (h : (a == b) = false) : (a :: as).isPrefixOf (b :: bs) = false := by
  simp [List.isPrefixOf, h]

theorem isSuffixOf_append (t l : List Char) : l.isSuffixOf (t ++ l) = true := by
  unfold List.isSuffixOf
  rw [List.reverse_append]
  exact isPrefixOf_append _ _

theorem any_congr_mem {l : List (List Char)} {f g : List Char → Bool}
    (h : ∀ e ∈ l, f e = g e) : l.any f = l.any g := by
  induction l with
  | nil => rfl
  | cons a t ih =>
    simp only [List.any_cons, h a (by simp), ih (fun e he => h e (by simp [he]))]

theorem splitWSAux_all_nonspace {t : List Char} (acc : List Char)
    (ht : ∀ c ∈ t, pyIsSpace c = false) :
    splitWSAux t acc = if acc = [] ∧ t = [] then [] else [acc.reverse ++ t] := by
  induction t generalizing acc with
  | nil =>
    by_cases hacc : acc = [] <;> simp [splitWSAux, hacc]
  | cons c t' ih =>
    have hc := ht c (by simp)
    have hrec := ih (c :: acc) (fun d hd => ht d (by simp [hd]))
    simp only [splitWSAux, hc, Bool.false_eq_true, if_false, hrec]
    simp

theorem pySplitWS_hosts (tok : List Char) (htok : tok ≠ [])
    (ht : ∀ c ∈ tok, pyIsSpace c = false) :
    pySplitWS ("0.0.0.0 ".toList ++ tok) = ["0.0.0.0".toList, tok] := by
  have step : ∀ (c : Char) (rest acc : List Char), pyIsSpace c = false →
      splitWSAux (c :: rest) acc = splitWSAux rest (c :: acc) := by
    intro c rest acc hc
    simp [splitWSAux, hc]
  have stepSpace : ∀ (c : Char) (rest acc : List Char), pyIsSpace c = true → ¬ acc = [] →
      splitWSAux (c :: rest) acc = acc.reverse :: splitWSAux rest [] := by
    intro c rest acc hc hacc
    simp [splitWSAux, hc, hacc]
  show splitWSAux ('0' :: '.' :: '0' :: '.' :: '0' :: '.' :: '0' :: ' ' :: tok) [] = _
  rw [step '0' _ _ (by decide), step '.' _ _ (by decide), step '0' _ _ (by decide),
    step '.' _ _ (by decide), step '0' _ _ (by decide), step '.' _ _ (by decide),
    step '0' _ _ (by decide), stepSpace ' ' _ _ (by decide) (by decide)]
  rw [splitWSAux_all_nonspace [] ht]
  simp [htok]

theorem extractDomain_hosts (tok : List Char) (htok : tok ≠ [])
    (htokc : ∀ c ∈ tok, isTokenChar c = true) :
    extractDomain ("0.0.0.0 ".toList ++ tok) = some (pyLower tok) := by
  unfold extractDomain
  rw [if_pos (isPrefixOf_append _ _)]
  rw [pySplitWS_hosts tok htok (fun c hc => token_not_space (htokc c hc))]
  rfl

theorem extractDomain_adguard (x : List Char) :
    extractDomain ("||".toList ++ x ++ "^".toList) = some (pyLower (splitSlashHead x)) := by
  unfold extractDomain
  have hcond : "0.0.0.0 ".toList.isPrefixOf ("||".toList ++ x ++ "^".toList) = false := by
    rw [show ("||".toList ++ x ++ "^".toList : List Char)
        = '|' :: ("|".toList ++ x ++ "^".toList) from rfl]
    rw [show ("0.0.0.0 ".toList : List Char) = '0' :: ".0.0.0 ".toList from rfl]
    exact isPrefixOf_cons_ne _ _ (by decide)
  rw [if_neg (by simp [hcond])]
  have hpre : "||".toList.isPrefixOf ("||".toList ++ x ++ "^".toList) = true := by
    rw [List.append_assoc]
    exact isPrefixOf_append _ _
  have hsuf : "^".toList.isSuffixOf ("||".toList ++ x ++ "^".toList) = true :=
    isSuffixOf_append _ _
  rw [if_pos ⟨hpre, hsuf⟩]
  have hdrop : (("||".toList ++ x ++ "^".toList : List Char).drop 2) = x ++ "^".toList := by
    rw [show ("||".toList ++ x ++ "^".toList : List Char)
        = '|' :: '|' :: (x ++ "^".toList) from rfl]
    rfl
  rw [hdrop]
  have hlast : ((x ++ "^".toList : List Char)).dropLast = x := by
    rw [show ("^".toList : List Char) = ['^'] from rfl]
    simp
  rw [hlast]

/-- Membership in the merge output is preserved when a line is prepended
to the input, whatever branch that line takes. -/
theorem mergeLoop_mem_cons (wl : List (List Char)) (line : List Char)
    (rest : List (List Char)) (x : List Char)
    (h : ∀ conv', x ∈ (mergeLoop wl rest conv').1) :
    ∀ conv, x ∈ (mergeLoop wl (line :: rest) conv).1 := by
  intro conv
  by_cases hemp : line = []
  · rw [show mergeLoop wl (line :: rest) conv = mergeLoop wl rest conv from by
      simp [mergeLoop, hemp]]
    exact h conv
  · by_cases hcom : ['#'] <+: pyStrip line
    · rw [show (mergeLoop wl (line :: rest) conv).1
          = pyStrip line :: (mergeLoop wl rest conv).1 from by
        simp [mergeLoop, hemp, hcom]]
      exact List.mem_cons_of_mem _ (h conv)
    · by_cases hrej : containsReject (pyStrip line) = true
      · cases hconv : convert_rule_line (pyStrip line) with
        | none =>
          rw [show (mergeLoop wl (line :: rest) conv).1
              = unrecognizedComment (pyStrip line) :: (mergeLoop wl rest conv).1 from by
            simp [mergeLoop, hemp, hcom, hrej, hconv]]
          exact List.mem_cons_of_mem _ (h conv)
        | some cr =>
          by_cases hwl2 : is_whitelisted cr wl = true
          · rw [show (mergeLoop wl (line :: rest) conv).1
                = whitelistComment cr :: (mergeLoop wl rest conv).1 from by
              simp [mergeLoop, hemp, hcom, hrej, hconv, hwl2]]
            exact List.mem_cons_of_mem _ (h conv)
          · have hwl2' : is_whitelisted cr wl = false := by simpa using hwl2
            by_cases hdup : cr ∈ conv
            · rw [show mergeLoop wl (line :: rest) conv = mergeLoop wl rest conv from by
                simp [mergeLoop, hemp, hcom, hrej, hconv, hwl2', hdup]]
              exact h conv
            · rw [show (mergeLoop wl (line :: rest) conv).1
                  = cr :: (mergeLoop wl rest (cr :: conv)).1 from by
                simp [mergeLoop, hemp, hcom, hrej, hconv, hwl2', hdup]]
              exact List.mem_cons_of_mem _ (h (cr :: conv))
      · have hrej' : containsReject (pyStrip line) = false := by simpa using hrej
        rw [show (mergeLoop wl (line :: rest) conv).1
            = skipComment (pyStrip line) :: (mergeLoop wl rest conv).1 from by
          simp [mergeLoop, hemp, hcom, hrej']]
        exact List.mem_cons_of_mem _ (h conv)

theorem mergeLoop_unrecognized_mem (wl : List (List Char)) (lines : List (List Char))
    (l : List Char) (hne : ¬ l = []) (hcom : ¬ ['#'] <+: pyStrip l)
    (hrej : containsReject (pyStrip l) = true)
    (hconv : convert_rule_line (pyStrip l) = none) (hmem : l ∈ lines) :
    ∀ conv, unrecognizedComment (pyStrip l) ∈ (mergeLoop wl lines conv).1 := by
  induction lines with
  | nil => simp at hmem
  | cons line rest ih =>
    rcases List.mem_cons.mp hmem with rfl | hmem'
    · intro conv
      rw [show (mergeLoop wl (l :: rest) conv).1
          = unrecognizedComment (pyStrip l) :: (mergeLoop wl rest conv).1 from by
        simp [mergeLoop, hne, hcom, hrej, hconv]]
      exact List.mem_cons_self _ _
    · exact mergeLoop_mem_cons wl line rest _ (ih hmem')

theorem dropWhile_idem (p : Char → Bool) (l : List Char) :
    (l.dropWhile p).dropWhile p = l.dropWhile p := by
  induction l with
  | nil => rfl
  | cons c t ih =>
    by_cases hc : p c = true
    · simp [List.dropWhile_cons_of_pos hc, ih]
    · simp [List.dropWhile_cons_of_neg hc]

theorem head_dropWhile_false {p : Char → Bool} {l : List Char} {c : Char} {t : List Char}
    (h : l.dropWhile p = c :: t) : p c = false := by
  induction l with
  | nil => simp [List.dropWhile] at h
  | cons a l' ih =>
    by_cases ha : p a = true
    · rw [List.dropWhile_cons_of_pos ha] at h
      exact ih h
    · rw [List.dropWhile_cons_of_neg ha] at h
      cases h
      simpa using ha

theorem getLast?_dropWhile {p : Char → Bool} {l : List Char}
    (h : l.dropWhile p ≠ []) : (l.dropWhile p).getLast? = l.getLast? := by
  induction l with
  | nil => simp at h
  | cons a l' ih =>
    by_cases ha : p a = true
    · rw [List.dropWhile_cons_of_pos ha] at h ⊢
      rw [ih h]
      have hl' : l' ≠ [] := by
        rintro rfl
        simp [List.dropWhile] at h
      obtain ⟨b, l'', rfl⟩ := List.exists_cons_of_ne_nil hl'
      rw [List.getLast?_cons_cons]
    · rw [List.dropWhile_cons_of_neg ha]

/-- `str.strip()` is idempotent: fetched lines are already stripped. -/
theorem pyStrip_idem (s : List Char) : pyStrip (pyStrip s) = pyStrip s := by
  have step1 : (pyStrip s).dropWhile pyIsSpace = pyStrip s := by
    cases hBr : ((s.dropWhile pyIsSpace).reverse.dropWhile pyIsSpace).reverse with
    | nil =>
      unfold pyStrip
      rw [hBr]
      rfl
    | cons c r' =>
      have hBne : (s.dropWhile pyIsSpace).reverse.dropWhile pyIsSpace ≠ [] := by
        intro h0
        rw [h0] at hBr
        simp at hBr
      have h2 : ((s.dropWhile pyIsSpace).reverse.dropWhile pyIsSpace).getLast? = some c := by
        rw [← List.head?_reverse, hBr]
        rfl
      have h3 : (s.dropWhile pyIsSpace).reverse.getLast? = some c := by
        rw [← getLast?_dropWhile hBne]
        exact h2
      have h4 : (s.dropWhile pyIsSpace).head? = some c := by
        rw [← List.getLast?_reverse]
        exact h3
      cases hA : s.dropWhile pyIsSpace with
      | nil =>
        rw [hA] at h4
        simp at h4
      | cons a t =>
        rw [hA] at h4
        have hac : a = c := by simpa using h4
        have hpc : pyIsSpace a = false := head_dropWhile_false hA
        subst hac
        unfold pyStrip
        rw [hBr]
        exact List.dropWhile_cons_of_neg (by simp [hpc])
  have step2 : (pyStrip s).reverse.dropWhile pyIsSpace = (pyStrip s).reverse := by
    unfold pyStrip
    rw [List.reverse_reverse]
    exact dropWhile_idem pyIsSpace _
  show (((pyStrip s).dropWhile pyIsSpace).reverse.dropWhile pyIsSpace).reverse = pyStrip s
  rw [step1, step2, List.reverse_reverse]

/-! ## Claim theorems -/

/-- **C1.** Every input line of the form `host, <token>, reject` — keyword
and `reject` case-insensitive, arbitrary whitespace around the commas and
at the ends of the line, the token a non-empty run of non-whitespace,
non-comma characters — translates to exactly `"0.0.0.0 " + token`; a `'*'`
token is rejected (`convert_rule_line` returns `none`, so the merge stage
classifies the line as unrecognized and emits no hosts line), and an empty
token cannot match the grammar at all (`host,,reject` is unrecognized). -/
theorem host_rule_translation
    (w0 w1 w2 w3 w4 w5 kw rj tok : List Char)
    (hkw : ciEq kw "host".toList = true)
    (hrj : ciEq rj "reject".toList = true)
    (h0 : ∀ c ∈ w0, pyIsSpace c = true) (h1 : ∀ c ∈ w1, pyIsSpace c = true)
    (h2 : ∀ c ∈ w2, pyIsSpace c = true) (h3 : ∀ c ∈ w3, pyIsSpace c = true)
    (h4 : ∀ c ∈ w4, pyIsSpace c = true) (h5 : ∀ c ∈ w5, pyIsSpace c = true)
    (htok : tok ≠ []) (htokc : ∀ c ∈ tok, isTokenChar c = true) :
    convert_rule_line
        (w0 ++ (kw ++ (w1 ++ ',' :: (w2 ++ (tok ++ (w3 ++ ',' :: (w4 ++ rj)))))) ++ w5)
      = (if tok = ['*'] then none else some ("0.0.0.0 ".toList ++ tok))
    ∧ convert_rule_line "host,,reject".toList = none
    ∧ (merge_and_convert ["host, *, reject".toList] []).1
        = header 0 ++ [unrecognizedComment "host, *, reject".toList] := by
  refine ⟨?_, by decide, by decide⟩
  obtain ⟨k0, kw', hkwd, hk0⟩ :=
    ciEq_head_not_space (show ciEq kw ('h' :: "ost".toList) = true from hkw)
      (by decide) (by decide)
  obtain ⟨rja, rjt, hrjd, hrjt⟩ :=
    ciEq_last_not_space (show ciEq rj ("rejec".toList ++ ['t']) = true from hrj)
      (by decide) (by decide)
  have hstrip : pyStrip
      (w0 ++ (kw ++ (w1 ++ ',' :: (w2 ++ (tok ++ (w3 ++ ',' :: (w4 ++ rj)))))) ++ w5)
      = kw ++ (w1 ++ ',' :: (w2 ++ (tok ++ (w3 ++ ',' :: (w4 ++ rj))))) := by
    refine pyStrip_sandwich h0 h5 ?_ ?_
    · exact ⟨k0, kw' ++ (w1 ++ ',' :: (w2 ++ (tok ++ (w3 ++ ',' :: (w4 ++ rj))))),
        by rw [hkwd]; simp, hk0⟩
    · refine ⟨kw ++ (w1 ++ ',' :: (w2 ++ (tok ++ (w3 ++ ',' :: (w4 ++ rja))))), rjt,
        ?_, hrjt⟩
      rw [hrjd]
      simp
  have hhost : parseRejectRule "host"
      (pyStrip (w0 ++ (kw ++ (w1 ++ ',' :: (w2 ++ (tok ++ (w3 ++ ',' :: (w4 ++ rj)))))) ++ w5))
      = some tok := by
    rw [hstrip, parseRejectRule_of_ciEq hkw]
    exact parseTail_eq h1 h2 h3 h4 htok htokc hrj
  rw [convert_of_host hhost]
  by_cases hstar : tok = ['*']
  · simp [hstar]
  · simp [hstar, htok]

/-- Witness for **C1** at the concrete line `" Host , a.com , REJECT \t"`. -/
theorem host_rule_translation_witness :
    convert_rule_line
        ([' '] ++ ("Host".toList ++ ([] ++ ',' :: ([' '] ++ ("a.com".toList ++
          ([] ++ ',' :: ([' '] ++ "REJECT".toList)))))) ++ [' ', '\t'])
      = (if "a.com".toList = ['*'] then none
         else some ("0.0.0.0 ".toList ++ "a.com".toList))
    ∧ convert_rule_line "host,,reject".toList = none
    ∧ (merge_and_convert ["host, *, reject".toList] []).1
        = header 0 ++ [unrecognizedComment "host, *, reject".toList] :=
  host_rule_translation [' '] [] [' '] [] [' '] [' ', '\t']
    "Host".toList "REJECT".toList "a.com".toList
    (by decide) (by decide) (by decide) (by decide) (by decide) (by decide)
    (by decide) (by decide) (by decide) (by decide)

/-- **C3 (counterexample).** A `host-suffix` rule expands to exactly ONE
output string, `"||" + domain + "^"`; it does not produce the claimed
pair beginning with `"0.0.0.0 " + domain`. -/
theorem hostSuffix_output_counterexample :
    (convert_rule_line "host-suffix, a.com, reject".toList).toList
      = ["||a.com^".toList]
    ∧ ["||a.com^".toList]
      ≠ ["0.0.0.0 a.com".toList, "||a.com^".toList] := by
  constructor
  · decide
  · decide

/-- **C3 (amended).** Every input line of the form
`host-suffix, <domain>, reject` (case-insensitive keywords, whitespace
around commas and line ends insignificant, domain a non-empty token)
translates to exactly one output string `"||" + domain + "^"`. -/
theorem hostSuffix_rule_translation
    (w0 w1 w2 w3 w4 w5 kwh kws rj tok : List Char)
    (hkwh : ciEq kwh "host".toList = true)
    (hkws : ciEq kws "suffix".toList = true)
    (hrj : ciEq rj "reject".toList = true)
    (h0 : ∀ c ∈ w0, pyIsSpace c = true) (h1 : ∀ c ∈ w1, pyIsSpace c = true)
    (h2 : ∀ c ∈ w2, pyIsSpace c = true) (h3 : ∀ c ∈ w3, pyIsSpace c = true)
    (h4 : ∀ c ∈ w4, pyIsSpace c = true) (h5 : ∀ c ∈ w5, pyIsSpace c = true)
    (htok : tok ≠ []) (htokc : ∀ c ∈ tok, isTokenChar c = true) :
    convert_rule_line
        (w0 ++ ((kwh ++ '-' :: kws) ++
          (w1 ++ ',' :: (w2 ++ (tok ++ (w3 ++ ',' :: (w4 ++ rj)))))) ++ w5)
      = some ("||".toList ++ tok ++ "^".toList) := by
  obtain ⟨k0, kw', hkwd, hk0⟩ :=
    ciEq_head_not_space (show ciEq kwh ('h' :: "ost".toList) = true from hkwh)
      (by decide) (by decide)
  obtain ⟨rja, rjt, hrjd, hrjt⟩ :=
    ciEq_last_not_space (show ciEq rj ("rejec".toList ++ ['t']) = true from hrj)
      (by decide) (by decide)
  have hstrip : pyStrip
      (w0 ++ ((kwh ++ '-' :: kws) ++
        (w1 ++ ',' :: (w2 ++ (tok ++ (w3 ++ ',' :: (w4 ++ rj)))))) ++ w5)
      = (kwh ++ '-' :: kws) ++ (w1 ++ ',' :: (w2 ++ (tok ++ (w3 ++ ',' :: (w4 ++ rj))))) := by
    refine pyStrip_sandwich h0 h5 ?_ ?_
    · exact ⟨k0, (kw' ++ '-' :: kws) ++
        (w1 ++ ',' :: (w2 ++ (tok ++ (w3 ++ ',' :: (w4 ++ rj))))),
        by rw [hkwd]; simp, hk0⟩
    · refine ⟨(kwh ++ '-' :: kws) ++ (w1 ++ ',' :: (w2 ++ (tok ++ (w3 ++ ',' :: (w4 ++ rja))))),
        rjt, ?_, hrjt⟩
      rw [hrjd]
      simp
  have hshape : (kwh ++ '-' :: kws) ++
      (w1 ++ ',' :: (w2 ++ (tok ++ (w3 ++ ',' :: (w4 ++ rj)))))
      = kwh ++ ('-' :: (kws ++ (w1 ++ ',' :: (w2 ++ (tok ++ (w3 ++ ',' :: (w4 ++ rj))))))) := by
    simp
  have hhostfail : parseRejectRule "host"
      (pyStrip (w0 ++ ((kwh ++ '-' :: kws) ++
        (w1 ++ ',' :: (w2 ++ (tok ++ (w3 ++ ',' :: (w4 ++ rj)))))) ++ w5)) = none := by
    rw [hstrip, hshape, parseRejectRule_of_ciEq hkwh]
    exact parseTail_dash _
  have hsuffix : parseRejectRule "host-suffix"
      (pyStrip (w0 ++ ((kwh ++ '-' :: kws) ++
        (w1 ++ ',' :: (w2 ++ (tok ++ (w3 ++ ',' :: (w4 ++ rj)))))) ++ w5)) = some tok := by
    rw [hstrip]
    have hfull : ciEq (kwh ++ '-' :: kws) ("host-suffix".toList) = true := by
      have hsfx : ciEq ('-' :: kws) ('-' :: "suffix".toList) = true := by
        have hdash : eqCI '-' '-' = true := by decide
        simp only [ciEq, hdash, Bool.true_and]
        exact hkws
      exact show ciEq (kwh ++ '-' :: kws) ("host".toList ++ '-' :: "suffix".toList) = true from
        ciEq_append hkwh hsfx
    rw [parseRejectRule_of_ciEq hfull]
    exact parseTail_eq h1 h2 h3 h4 htok htokc hrj
  rw [convert_of_hostSuffix hhostfail hsuffix]

/-- Witness for **C3 (amended)** at the concrete line
`"Host-Suffix ,example.com, Reject"`. -/
theorem hostSuffix_rule_translation_witness :
    convert_rule_line
        ([] ++ (("Host".toList ++ '-' :: "Suffix".toList) ++
          ([' '] ++ ',' :: ([] ++ ("example.com".toList ++
            ([] ++ ',' :: ([' '] ++ "Reject".toList)))))) ++ [])
      = some ("||".toList ++ "example.com".toList ++ "^".toList) :=
  hostSuffix_rule_translation [] [' '] [] [] [' '] []
    "Host".toList "Suffix".toList "Reject".toList "example.com".toList
    (by decide) (by decide) (by decide) (by decide) (by decide) (by decide)
    (by decide) (by decide) (by decide) (by decide) (by decide)

/-- **C2 (counterexample).** A `host-keyword` rule translates to
`"||" + keyword + "^"`, not to the claimed
`"||*" + keyword + "*$important"`. -/
theorem hostKeyword_output_counterexample :
    convert_rule_line "host-keyword, ads, reject".toList = some "||ads^".toList
    ∧ "||ads^".toList ≠ "||*ads*$important".toList := by
  constructor
  · decide
  · decide

/-- **C2 (amended).** Every input line of the form
`host-keyword, <keyword>, reject` (case-insensitive keywords, whitespace
around commas and line ends insignificant, keyword a non-empty token)
translates to exactly `"||" + keyword + "^"` — the same shape as a
`host-suffix` rule, with no wildcards and no `$important` modifier. -/
theorem hostKeyword_rule_translation
    (w0 w1 w2 w3 w4 w5 kwh kwk rj tok : List Char)
    (hkwh : ciEq kwh "host".toList = true)
    (hkwk : ciEq kwk "keyword".toList = true)
    (hrj : ciEq rj "reject".toList = true)
    (h0 : ∀ c ∈ w0, pyIsSpace c = true) (h1 : ∀ c ∈ w1, pyIsSpace c = true)
    (h2 : ∀ c ∈ w2, pyIsSpace c = true) (h3 : ∀ c ∈ w3, pyIsSpace c = true)
    (h4 : ∀ c ∈ w4, pyIsSpace c = true) (h5 : ∀ c ∈ w5, pyIsSpace c = true)
    (htok : tok ≠ []) (htokc : ∀ c ∈ tok, isTokenChar c = true) :
    convert_rule_line
        (w0 ++ ((kwh ++ '-' :: kwk) ++
          (w1 ++ ',' :: (w2 ++ (tok ++ (w3 ++ ',' :: (w4 ++ rj)))))) ++ w5)
      = some ("||".toList ++ tok ++ "^".toList) := by
  obtain ⟨k0, kw', hkwd, hk0⟩ :=
    ciEq_head_not_space (show ciEq kwh ('h' :: "ost".toList) = true from hkwh)
      (by decide) (by decide)
  obtain ⟨c0, ck, hkwkd, hc0, -⟩ :=
    ciEq_cons_inv (show ciEq kwk ('k' :: "eyword".toList) = true from hkwk)
  obtain ⟨rja, rjt, hrjd, hrjt⟩ :=
    ciEq_last_not_space (show ciEq rj ("rejec".toList ++ ['t']) = true from hrj)
      (by decide) (by decide)
  have hstrip : pyStrip
      (w0 ++ ((kwh ++ '-' :: kwk) ++
        (w1 ++ ',' :: (w2 ++ (tok ++ (w3 ++ ',' :: (w4 ++ rj)))))) ++ w5)
      = (kwh ++ '-' :: kwk) ++ (w1 ++ ',' :: (w2 ++ (tok ++ (w3 ++ ',' :: (w4 ++ rj))))) := by
    refine pyStrip_sandwich h0 h5 ?_ ?_
    · exact ⟨k0, (kw' ++ '-' :: kwk) ++
        (w1 ++ ',' :: (w2 ++ (tok ++ (w3 ++ ',' :: (w4 ++ rj))))),
        by rw [hkwd]; simp, hk0⟩
    · refine ⟨(kwh ++ '-' :: kwk) ++ (w1 ++ ',' :: (w2 ++ (tok ++ (w3 ++ ',' :: (w4 ++ rja))))),
        rjt, ?_, hrjt⟩
      rw [hrjd]
      simp
  have hshape : (kwh ++ '-' :: kwk) ++
      (w1 ++ ',' :: (w2 ++ (tok ++ (w3 ++ ',' :: (w4 ++ rj)))))
      = kwh ++ ('-' :: (kwk ++ (w1 ++ ',' :: (w2 ++ (tok ++ (w3 ++ ',' :: (w4 ++ rj))))))) := by
    simp
  have hhostfail : parseRejectRule "host"
      (pyStrip (w0 ++ ((kwh ++ '-' :: kwk) ++
        (w1 ++ ',' :: (w2 ++ (tok ++ (w3 ++ ',' :: (w4 ++ rj)))))) ++ w5)) = none := by
    rw [hstrip, hshape, parseRejectRule_of_ciEq hkwh]
    exact parseTail_dash _
  have hshape2 : (kwh ++ '-' :: kwk) ++
      (w1 ++ ',' :: (w2 ++ (tok ++ (w3 ++ ',' :: (w4 ++ rj)))))
      = (kwh ++ ['-']) ++ (kwk ++ (w1 ++ ',' :: (w2 ++ (tok ++ (w3 ++ ',' :: (w4 ++ rj)))))) := by
    simp
  have hsuffixfail : parseRejectRule "host-suffix"
      (pyStrip (w0 ++ ((kwh ++ '-' :: kwk) ++
        (w1 ++ ',' :: (w2 ++ (tok ++ (w3 ++ ',' :: (w4 ++ rj)))))) ++ w5)) = none := by
    rw [hstrip, hshape2]
    refine parseRejectRule_none ?_
    have hpre : ciEq (kwh ++ ['-']) "host-".toList = true := by
      exact show ciEq (kwh ++ ['-']) ("host".toList ++ ['-']) = true from
        ciEq_append hkwh (by decide)
    have := matchCI_append hpre "suffix".toList
      (kwk ++ (w1 ++ ',' :: (w2 ++ (tok ++ (w3 ++ ',' :: (w4 ++ rj))))))
    rw [show ("host-suffix".toList : List Char) = "host-".toList ++ "suffix".toList
      from by decide]
    rw [this, hkwkd, List.cons_append]
    exact matchCI_cons_ne (eqCI_false_of_CI hc0 (by decide))
  have hkeyword : parseRejectRule "host-keyword"
      (pyStrip (w0 ++ ((kwh ++ '-' :: kwk) ++
        (w1 ++ ',' :: (w2 ++ (tok ++ (w3 ++ ',' :: (w4 ++ rj)))))) ++ w5)) = some tok := by
    rw [hstrip]
    have hfull : ciEq (kwh ++ '-' :: kwk) ("host-keyword".toList) = true := by
      have hk2 : ciEq ('-' :: kwk) ('-' :: "keyword".toList) = true := by
        have hdash : eqCI '-' '-' = true := by decide
        simp only [ciEq, hdash, Bool.true_and]
        exact hkwk
      exact show ciEq (kwh ++ '-' :: kwk) ("host".toList ++ '-' :: "keyword".toList) = true from
        ciEq_append hkwh hk2
    rw [parseRejectRule_of_ciEq hfull]
    exact parseTail_eq h1 h2 h3 h4 htok htokc hrj
  rw [convert_of_hostKeyword hhostfail hsuffixfail hkeyword]

/-- Witness for **C2 (amended)** at the concrete line
`"HOST-KEYWORD, ads-track , reject"`. -/
theorem hostKeyword_rule_translation_witness :
    convert_rule_line
        ([] ++ (("HOST".toList ++ '-' :: "KEYWORD".toList) ++
          ([] ++ ',' :: ([' '] ++ ("ads-track".toList ++
            ([' '] ++ ',' :: ([' '] ++ "reject".toList)))))) ++ [])
      = some ("||".toList ++ "ads-track".toList ++ "^".toList) :=
  hostKeyword_rule_translation [] [] [' '] [' '] [' '] []
    "HOST".toList "KEYWORD".toList "reject".toList "ads-track".toList
    (by decide) (by decide) (by decide) (by decide) (by decide) (by decide)
    (by decide) (by decide) (by decide) (by decide) (by decide)

/-- **C7 (counterexample).** The diagnostic comment for an unmatched
`reject` line is `"# 未识别规则：" + line`, not the claimed
`"# unrecognized: " + line`. -/
theorem unrecognized_comment_text_counterexample :
    ¬ ("# unrecognized: foobar reject".toList
        ∈ (merge_and_convert ["foobar reject".toList] []).1)
    ∧ "# 未识别规则：foobar reject".toList
        ∈ (merge_and_convert ["foobar reject".toList] []).1 :=
  ⟨by decide, by decide⟩

/-- **C7 (amended).** Every non-empty, non-comment input line containing
the substring `reject` (case-insensitively) that matches none of the
recognized grammars is emitted in the output as the diagnostic comment
`"# 未识别规则：" + stripped line`; no such line is silently discarded.
(A line whose stripped form starts with `#` is instead passed through as
a comment, and the diagnostic prefix is the Chinese text above, not
`"# unrecognized: "`.) -/
theorem unrecognized_reject_lines_annotated
    (lines wl : List (List Char)) (l : List Char)
    (hmem : l ∈ lines) (hne : ¬ l = [])
    (hcom : ¬ ['#'] <+: pyStrip l)
    (hrej : containsReject (pyStrip l) = true)
    (hconv : convert_rule_line (pyStrip l) = none) :
    unrecognizedComment (pyStrip l) ∈ (merge_and_convert lines wl).1 := by
  show unrecognizedComment (pyStrip l)
    ∈ header wl.length ++ (mergeLoop wl lines []).1
  exact List.mem_append_right _
    (mergeLoop_unrecognized_mem wl lines l hne hcom hrej hconv hmem [])

/-- Witness for **C7 (amended)** at the single input line
`"foobar reject"`. -/
theorem unrecognized_reject_lines_annotated_witness :
    unrecognizedComment (pyStrip "foobar reject".toList)
      ∈ (merge_and_convert ["foobar reject".toList] []).1 :=
  unrecognized_reject_lines_annotated ["foobar reject".toList] []
    "foobar reject".toList (by decide) (by decide) (by decide) (by decide) (by decide)

/-- **C5.** In the merged output the non-comment lines are exactly the
successfully translated, non-whitelisted rules deduplicated by exact
string equality, first occurrence kept at its first-seen position
(`dedupSeen [] …`); comment lines are exempt.  In particular two sources
both yielding `host, a.com, reject` produce exactly one `0.0.0.0 a.com`
line, while duplicate comments are kept twice. -/
theorem output_dedup :
    (∀ lines wl, ((merge_and_convert lines wl).1).filter nonComment
        = dedupSeen [] (translatedLines wl lines))
    ∧ (merge_and_convert
        ["host, a.com, reject".toList, "host, a.com, reject".toList] []).1.count
        "0.0.0.0 a.com".toList = 1
    ∧ (merge_and_convert ["# note".toList, "# note".toList] []).1.count
        "# note".toList = 2 :=
  ⟨merge_filter, by decide, by decide⟩

/-- **C6.** Whitelist filtering: the domain of a translated line is
extracted format-specifically (`0.0.0.0 X` yields `X`; `||X^` or
`||X/path^` yields `X`, everything from the first `/` on ignored), both
sides are lower-cased for the comparison (the extracted domain is
lower-cased by the code, the entries are already lower-case — hypothesis
`hwl`, guaranteed by `load_white_list`), and a line is whitelisted iff
the domain equals an entry or ends with `"." + entry`.  The suppressed
line is replaced by a diagnostic comment (third conjunct), and
`ads.example.com.evil.com` is NOT suppressed by entry `ads.example.com`
(fourth conjunct). -/
theorem whitelist_matching
    (wl : List (List Char)) (hwl : ∀ e ∈ wl, pyLower e = e)
    (tok : List Char) (htok : tok ≠ []) (htokc : ∀ c ∈ tok, isTokenChar c = true)
    (x : List Char) (hx : ¬ splitSlashHead x = []) :
    (is_whitelisted ("0.0.0.0 ".toList ++ tok) wl
      = wl.any (fun e => pyLower tok == pyLower e
          || ('.' :: pyLower e).isSuffixOf (pyLower tok)))
    ∧ (is_whitelisted ("||".toList ++ x ++ "^".toList) wl
      = wl.any (fun e => pyLower (splitSlashHead x) == pyLower e
          || ('.' :: pyLower e).isSuffixOf (pyLower (splitSlashHead x))))
    ∧ (merge_and_convert ["host-suffix, sub.ads.example.com, reject".toList]
        ["ads.example.com".toList]).1
      = header 1 ++ [whitelistComment "||sub.ads.example.com^".toList]
    ∧ is_whitelisted "0.0.0.0 ads.example.com.evil.com".toList
        ["ads.example.com".toList] = false := by
  refine ⟨?_, ?_, by decide, by decide⟩
  · unfold is_whitelisted
    rw [extractDomain_hosts tok htok htokc]
    by_cases hnil : wl = []
    · simp [hnil]
    · rw [if_neg hnil]
      have hne : ¬ (pyLower tok = []) := by
        simp [pyLower, htok]
      show (if pyLower tok = [] then false
        else wl.any (fun e => pyLower tok == e || ('.' :: e).isSuffixOf (pyLower tok))) = _
      rw [if_neg hne]
      exact any_congr_mem (fun e he => by rw [hwl e he])
  · unfold is_whitelisted
    rw [extractDomain_adguard x]
    by_cases hnil : wl = []
    · simp [hnil]
    · rw [if_neg hnil]
      have hne : ¬ (pyLower (splitSlashHead x) = []) := by
        simp [pyLower, hx]
      show (if pyLower (splitSlashHead x) = [] then false
        else wl.any (fun e => pyLower (splitSlashHead x) == e
          || ('.' :: e).isSuffixOf (pyLower (splitSlashHead x)))) = _
      rw [if_neg hne]
      exact any_congr_mem (fun e he => by rw [hwl e he])

/-- Witness for **C6** at whitelist `["ads.example.com"]`, hosts line
domain `sub.ads.example.com` and AdGuard line body `a.com/some/path`. -/
theorem whitelist_matching_witness :
    (is_whitelisted ("0.0.0.0 ".toList ++ "sub.ads.example.com".toList)
        ["ads.example.com".toList]
      = (["ads.example.com".toList]).any (fun e =>
          pyLower "sub.ads.example.com".toList == pyLower e
          || ('.' :: pyLower e).isSuffixOf (pyLower "sub.ads.example.com".toList)))
    ∧ (is_whitelisted ("||".toList ++ "a.com/some/path".toList ++ "^".toList)
        ["ads.example.com".toList]
      = (["ads.example.com".toList]).any (fun e =>
          pyLower (splitSlashHead "a.com/some/path".toList) == pyLower e
          || ('.' :: pyLower e).isSuffixOf
              (pyLower (splitSlashHead "a.com/some/path".toList))))
    ∧ (merge_and_convert ["host-suffix, sub.ads.example.com, reject".toList]
        ["ads.example.com".toList]).1
      = header 1 ++ [whitelistComment "||sub.ads.example.com^".toList]
    ∧ is_whitelisted "0.0.0.0 ads.example.com.evil.com".toList
        ["ads.example.com".toList] = false :=
  whitelist_matching ["ads.example.com".toList] (by decide)
    "sub.ads.example.com".toList (by decide) (by decide)
    "a.com/some/path".toList (by decide)

/-- **C4.** Every input line of the form `url, [scheme://]host[/path], reject`
with the scheme absent or one of `http`, `https`, `ws`, `wss`
(case-insensitive), the host a non-empty run of characters excluding
whitespace, `/` and `,`, and the path either empty or `/` followed by
non-whitespace non-comma characters, translates to exactly
`"||" + host + path + "^"` — the path appended verbatim before the
terminator, and the host captured identically with or without a scheme.
(When no scheme is written, the `stripSchemeCI … = none` hypothesis states
that the host/path text does not itself start with a scheme prefix, i.e.
the line has a unique decomposition under the grammar.) -/
theorem url_rule_translation
    (w0 w1 w2 w3 w4 w5 kw sch host path rj : List Char)
    (hkw : ciEq kw "url".toList = true)
    (hrj : ciEq rj "reject".toList = true)
    (h0 : ∀ c ∈ w0, pyIsSpace c = true) (h1 : ∀ c ∈ w1, pyIsSpace c = true)
    (h2 : ∀ c ∈ w2, pyIsSpace c = true) (h3 : ∀ c ∈ w3, pyIsSpace c = true)
    (h4 : ∀ c ∈ w4, pyIsSpace c = true) (h5 : ∀ c ∈ w5, pyIsSpace c = true)
    (hhost : host ≠ []) (hhostc : ∀ c ∈ host, isUrlHostChar c = true)
    (hpath : path = [] ∨ ∃ p, path = '/' :: p ∧ ∀ c ∈ p, isUrlPathChar c = true)
    (hsch : (sch = [] ∧
        stripSchemeCI (host ++ (path ++ (w3 ++ ',' :: (w4 ++ rj)))) = none)
      ∨ (∃ l, sch = l ++ "://".toList ∧
          (ciEq l "http".toList = true ∨ ciEq l "https".toList = true ∨
           ciEq l "ws".toList = true ∨ ciEq l "wss".toList = true))) :
    convert_rule_line
        (w0 ++ (kw ++ (w1 ++ ',' :: (w2 ++ (sch ++
          (host ++ (path ++ (w3 ++ ',' :: (w4 ++ rj)))))))) ++ w5)
      = some ("||".toList ++ host ++ path ++ "^".toList) := by
  obtain ⟨k0, kw', hkwd, hk0, -⟩ :=
    ciEq_cons_inv (show ciEq kw ('u' :: "rl".toList) = true from hkw)
  have hk0s : pyIsSpace k0 = false := not_space_of_eqCI hk0 (by decide) (by decide)
  obtain ⟨rja, rjt, hrjd, hrjt⟩ :=
    ciEq_last_not_space (show ciEq rj ("rejec".toList ++ ['t']) = true from hrj)
      (by decide) (by decide)
  have hstrip : pyStrip
      (w0 ++ (kw ++ (w1 ++ ',' :: (w2 ++ (sch ++
        (host ++ (path ++ (w3 ++ ',' :: (w4 ++ rj)))))))) ++ w5)
      = kw ++ (w1 ++ ',' :: (w2 ++ (sch ++
          (host ++ (path ++ (w3 ++ ',' :: (w4 ++ rj))))))) := by
    refine pyStrip_sandwich h0 h5 ?_ ?_
    · exact ⟨k0, kw' ++ (w1 ++ ',' :: (w2 ++ (sch ++
        (host ++ (path ++ (w3 ++ ',' :: (w4 ++ rj))))))),
        by rw [hkwd]; simp, hk0s⟩
    · refine ⟨kw ++ (w1 ++ ',' :: (w2 ++ (sch ++
        (host ++ (path ++ (w3 ++ ',' :: (w4 ++ rja))))))), rjt, ?_, hrjt⟩
      rw [hrjd]
      simp
  have hne : eqCI 'h' k0 = false := eqCI_false_of_CI hk0 (by decide)
  have hhostfail : parseRejectRule "host"
      (pyStrip (w0 ++ (kw ++ (w1 ++ ',' :: (w2 ++ (sch ++
        (host ++ (path ++ (w3 ++ ',' :: (w4 ++ rj)))))))) ++ w5)) = none := by
    rw [hstrip, hkwd]
    exact parseRejectRule_ne_head rfl _ _ hne
  have hsuffixfail : parseRejectRule "host-suffix"
      (pyStrip (w0 ++ (kw ++ (w1 ++ ',' :: (w2 ++ (sch ++
        (host ++ (path ++ (w3 ++ ',' :: (w4 ++ rj)))))))) ++ w5)) = none := by
    rw [hstrip, hkwd]
    exact parseRejectRule_ne_head rfl _ _ hne
  have hkeywordfail : parseRejectRule "host-keyword"
      (pyStrip (w0 ++ (kw ++ (w1 ++ ',' :: (w2 ++ (sch ++
        (host ++ (path ++ (w3 ++ ',' :: (w4 ++ rj)))))))) ++ w5)) = none := by
    rw [hstrip, hkwd]
    exact parseRejectRule_ne_head rfl _ _ hne
  have hurl : parseUrlRule
      (pyStrip (w0 ++ (kw ++ (w1 ++ ',' :: (w2 ++ (sch ++
        (host ++ (path ++ (w3 ++ ',' :: (w4 ++ rj)))))))) ++ w5)) = some (host, path) := by
    rw [hstrip]
    exact parseUrlRule_eq hkw h1 h2 h3 h4 hhost hhostc hpath hrj hsch
  rw [convert_of_url hhostfail hsuffixfail hkeywordfail hurl]

/-- Witness for **C4** at the concrete line
`"url, HTTPS://example.com/ads , reject"` (and implicitly, via the
theorem's scheme disjunction, the scheme-less capture). -/
theorem url_rule_translation_witness :
    convert_rule_line
        ([] ++ ("url".toList ++ ([] ++ ',' :: ([' '] ++ ("HTTPS://".toList ++
          ("example.com".toList ++ ("/ads".toList ++
            ([' '] ++ ',' :: ([' '] ++ "reject".toList)))))))) ++ [])
      = some ("||".toList ++ "example.com".toList ++ "/ads".toList ++ "^".toList) :=
  url_rule_translation [] [] [' '] [' '] [' '] []
    "url".toList "HTTPS://".toList "example.com".toList "/ads".toList "reject".toList
    (by decide) (by decide) (by decide) (by decide) (by decide) (by decide)
    (by decide) (by decide) (by decide) (by decide)
    (Or.inr ⟨"ads".toList, by decide, by decide⟩)
    (Or.inr ⟨"HTTPS".toList, by decide, Or.inr (Or.inl (by decide))⟩)

/-- **C8 (counterexample).** The summary reports four counters, not five:
there is no duplicate-suppressed counter and no comments counter.  And
for the fixed input `["host, a.com, reject", "foobar", "# note"]` the
unrecognized counter is 0, not the claimed 1 — `"foobar"` does not
contain `reject`, so it takes the "skipped non-reject rule" branch,
which is annotated but not counted. -/
theorem counters_counterexample :
    countersList (merge_and_convert
        ["host, a.com, reject".toList, "foobar".toList, "# note".toList] []).2
      = [3, 1, 0, 0]
    ∧ (countersList (merge_and_convert
        ["host, a.com, reject".toList, "foobar".toList, "# note".toList] []).2).length
      = 4
    ∧ (merge_and_convert
        ["host, a.com, reject".toList, "foobar".toList, "# note".toList] []).2.unrecognized
      = 0 :=
  ⟨by decide, by decide, by decide⟩

/-- **C8 (amended).** The run reports exact counters for four categories —
total input lines, successfully translated (post-dedup), whitelist-
suppressed and unrecognized; there is no duplicate-suppressed counter and
no comments counter.  For the fixed input
`["host, a.com, reject", "foobar", "# note"]` the counters are
total:3, translated:1, whitelisted:0, unrecognized:0; the output carries
one hosts line, a skipped-non-reject annotation for `foobar` and the
`# note` comment passed through unchanged; and on every input the total
counter equals the number of input lines. -/
theorem counters_fixed_input :
    (merge_and_convert
        ["host, a.com, reject".toList, "foobar".toList, "# note".toList] []).2
      = ⟨3, 1, 0, 0⟩
    ∧ (merge_and_convert
        ["host, a.com, reject".toList, "foobar".toList, "# note".toList] []).1
      = header 0 ++ ["0.0.0.0 a.com".toList,
          skipComment "foobar".toList, "# note".toList]
    ∧ (∀ lines wl, (merge_and_convert lines wl).2.raw = lines.length) :=
  ⟨by decide, by decide, fun _ _ => rfl⟩

/-- **C9 (counterexample).** A write failure does exit non-zero, but the
destination file is NOT left with its old content: `open(path, 'w')`
truncates the destination before writing, so a failure after `k`
characters leaves a prefix of the new content.  Here a failure at the
very start leaves an empty file where `"OLD"` stood. -/
theorem atomic_write_counterexample :
    (writeOutput (some "OLD".toList)
        (joinNL (merge_and_convert ["host, a.com, reject".toList] []).1) (some 0)).2 = 1
    ∧ ¬ ((writeOutput (some "OLD".toList)
        (joinNL (merge_and_convert ["host, a.com, reject".toList] []).1) (some 0)).1
      = some "OLD".toList) :=
  ⟨rfl, by decide⟩

/-- **C9 (amended).** When writing the output file fails the process
exits with code 1 (non-zero), but the write is performed directly on the
destination (truncate-then-write, no temporary file and no atomic
rename): a failure after `k` characters leaves the destination holding
the first `k` characters of the new content, not the old content; a
successful write leaves the new content and exit code 0. -/
theorem write_failure_behavior (previous : Option (List Char))
    (content : List Char) (k : Nat) :
    (writeOutput previous content (some k)).2 = 1
    ∧ (writeOutput previous content (some k)).1 = some (content.take k)
    ∧ (writeOutput previous content none).1 = some content
    ∧ (writeOutput previous content none).2 = 0 :=
  ⟨rfl, rfl, rfl, rfl⟩

/-- **C10.** The decode loop of `fetch_single_url_rules` cannot fail:
whatever the external `utf-8-sig` and `gbk` codecs do, the final
`latin-1` decoder accepts every byte string, so the `text is None`
branch is unreachable; the function returns `[]` on any request
exception and otherwise a (possibly empty) list of non-empty, stripped
lines. -/
theorem fetch_decode_total :
    (∀ (u g : List Byte → Option (List Char)) (bs : List Byte),
        ¬ decodeLoop [u, g, latin1Decode] bs = none)
    ∧ (∀ u g, fetch_single_url_rules u g .requestError = [])
    ∧ (∀ u g bs l, l ∈ fetch_single_url_rules u g (.ok bs)
        → ¬ l = [] ∧ pyStrip l = l) := by
  refine ⟨?_, fun _ _ => rfl, ?_⟩
  · intro u g bs
    cases hu : u bs with
    | some t => simp [decodeLoop, hu]
    | none =>
      cases hg : g bs with
      | some t => simp [decodeLoop, hu, hg]
      | none => simp [decodeLoop, hu, hg, latin1Decode]
  · intro u g bs l hl
    simp only [fetch_single_url_rules] at hl
    cases hd : decodeLoop [u, g, latin1Decode] bs with
    | none =>
      rw [hd] at hl
      simp at hl
    | some text =>
      rw [hd] at hl
      have hmem := List.mem_filter.mp hl
      have hne : ¬ l = [] := by simpa using hmem.2
      refine ⟨hne, ?_⟩
      obtain ⟨m, -, rfl⟩ := List.mem_map.mp hmem.1
      exact pyStrip_idem m

/-- Witness for **C10**: two always-failing codecs and the response body
`[104, 105]` (`"hi"`), whose single fetched line is non-empty and
stripped. -/
theorem fetch_decode_total_witness :
    ¬ decodeLoop [(fun _ => none), (fun _ => none), latin1Decode]
        ([104, 105] : List Byte) = none
    ∧ fetch_single_url_rules (fun _ => none) (fun _ => none) .requestError = []
    ∧ (¬ ("hi".toList = []) ∧ pyStrip "hi".toList = "hi".toList) :=
  ⟨fetch_decode_total.1 (fun _ => none) (fun _ => none) ([104, 105] : List Byte),
   fetch_decode_total.2.1 (fun _ => none) (fun _ => none),
   fetch_decode_total.2.2 (fun _ => none) (fun _ => none) ([104, 105] : List Byte)
     "hi".toList (by decide)⟩

end Convert
